import Mathlib

/-!
The framebuffer compositing layer of ply-image.

A shallow embedding of the framebuffer part of `src/ply-image.c`
(`fb_area_union`, `fb_area_intersect`, `fb_add_area_to_flush_area`,
`fb_fill_with_argb32_data`, `fb_flush`, `flush_generic`, `flush_xrgb32`).

Conventions of the embedding (LP64 Linux, the platform the program targets):

* `long` is a 64-bit two's complement integer, carried as an `Int` in
  `[-2^63, 2^63)`; `unsigned long` and `size_t` are 64-bit, carried as a `Nat`
  below `2^64`; `unsigned int` is 32-bit.  Every arithmetic step of the source
  is followed by the reduction its C type performs.
* Conversions between `long` and `unsigned long` keep the bit pattern.  A
  `long` subtraction whose exact result leaves the range is undefined in C; the
  model gives it the two's complement value, and the theorems about such code
  are stated where the exact result fits.
* Memory is a list: the mapped device memory is a list of bytes, the shadow
  buffer and the pixel data are lists of 32-bit words.  A load or store outside
  its object has no defined result, so every function that touches memory
  returns an `Option`, `none` standing for such an access.
* The byte image of a 32-bit word is little-endian.
-/

namespace PlyImage

/-! ## Machine integers -/

/-- Number of values of an `unsigned long` (and of `size_t`). -/
def ULONG_MOD : Nat := 18446744073709551616

/-- Number of values of an `unsigned int`. -/
def UINT_MOD : Nat := 4294967296

/-- First value above `LONG_MAX`. -/
def LONG_LIM : Nat := 9223372036854775808

/-- Conversion of a `long` to `unsigned long`: the bit pattern is kept. -/
def toULong (i : Int) : Nat := (i % (ULONG_MOD : Int)).toNat

/-- Conversion of an `unsigned long` to `long`: the bit pattern is kept. -/
def toLong (n : Nat) : Int :=
  if n % ULONG_MOD < LONG_LIM then ((n % ULONG_MOD : Nat) : Int)
  else ((n % ULONG_MOD : Nat) : Int) - (ULONG_MOD : Int)

/-- Result of a `long` computation whose exact value is `i`: `i` itself when it
fits a `long` (the only case C defines), its two's complement value otherwise. -/
def wrapLong (i : Int) : Int := toLong (toULong i)

/-- Addition of two `unsigned long` values. -/
def uadd (a b : Nat) : Nat := (a + b) % ULONG_MOD

/-- Subtraction of two `unsigned long` values. -/
def usub (a b : Nat) : Nat := (a % ULONG_MOD + (ULONG_MOD - b % ULONG_MOD)) % ULONG_MOD

/-- Multiplication of two `unsigned long` values. -/
def umul (a b : Nat) : Nat := (a * b) % ULONG_MOD

/-- The macro `MIN(a,b) ((a) <= (b)? (a) : (b))` at type `long`. -/
def MIN (a b : Int) : Int := if a ≤ b then a else b

/-- The macro `MAX(a,b) ((a) >= (b)? (a) : (b))` at type `long`. -/
def MAX (a b : Int) : Int := if a ≥ b then a else b

/-- The macro `MAX` at type `unsigned long`. -/
def UMAX (a b : Nat) : Nat := if a ≥ b then a else b

/-! ## Rectangles -/

/-- The struct `_fb_area`: `long x, y; unsigned long width, height`. -/
structure fb_area_t where
  x : Int
  y : Int
  width : Nat
  height : Nat
  deriving DecidableEq

/-- The fields of a rectangle lie in the ranges of their C types. -/
def fb_area_t.wf (a : fb_area_t) : Prop :=
  -(LONG_LIM : Int) ≤ a.x ∧ a.x < (LONG_LIM : Int) ∧
  -(LONG_LIM : Int) ≤ a.y ∧ a.y < (LONG_LIM : Int) ∧
  a.width < ULONG_MOD ∧ a.height < ULONG_MOD

instance (a : fb_area_t) : Decidable a.wf := by
  unfold fb_area_t.wf; infer_instance

/-- The function `fb_area_union` (lines 171-195).  The edges `x1, y1, x2, y2` are
`unsigned long`, so `MAX` compares them as unsigned numbers, while `MIN`
compares the `long` origins as signed numbers.  The caller passes the same
rectangle as `area1` and as `result`; every field is read before it is
written, so the result is a function of the two arguments. -/
def fb_area_union (area1 area2 : fb_area_t) : fb_area_t :=
  if area1.width = 0 then area2
  else if area2.width = 0 then area1
  else
    let x1 := uadd (toULong area1.x) area1.width
    let y1 := uadd (toULong area1.y) area1.height
    let x2 := uadd (toULong area2.x) area2.width
    let y2 := uadd (toULong area2.y) area2.height
    let rx := MIN area1.x area2.x
    let ry := MIN area1.y area2.y
    { x := rx
      y := ry
      width := usub (UMAX x1 x2) (toULong rx)
      height := usub (UMAX y1 y2) (toULong ry) }

/-- The function `fb_area_intersect` (lines 197-233).  Here the edges and the
extents `width`, `height` are `long`: the unsigned sums are converted to
`long` and compared as signed numbers.  The differences
`MIN(x1, x2) - result->x` and `MIN(y1, y2) - result->y` are `long`
subtractions: C leaves them undefined when the exact difference does not fit a
`long`, and `wrapLong` gives them the two's complement value there.  The
definition therefore speaks for the source only where both differences fit,
which holds whenever the widths and heights are below `2^63` and the edges
`x + width`, `y + height` of both rectangles fit a `long`; every theorem about
this function is stated inside that domain or at an input where the
differences fit. -/
def fb_area_intersect (area1 area2 : fb_area_t) : fb_area_t :=
  if area1.width = 0 then area1
  else if area2.width = 0 then area2
  else
    let x1 := toLong (uadd (toULong area1.x) area1.width)
    let y1 := toLong (uadd (toULong area1.y) area1.height)
    let x2 := toLong (uadd (toULong area2.x) area2.width)
    let y2 := toLong (uadd (toULong area2.y) area2.height)
    let rx := MAX area1.x area2.x
    let ry := MAX area1.y area2.y
    let width := wrapLong (MIN x1 x2 - rx)
    let height := wrapLong (MIN y1 y2 - ry)
    if width ≤ 0 ∨ height ≤ 0 then
      { x := rx, y := ry, width := 0, height := 0 }
    else
      { x := rx, y := ry, width := toULong width, height := toULong height }

/-! ## Memory -/

/-- Byte `k` (0 the lowest) of a 32-bit word. -/
def byte_of_word (v k : Nat) : Nat := (v / 256 ^ k) % 256

/-- The bytes a `uint32_t` array occupies in memory, what `memcpy` reads when it
is handed a pointer into the shadow buffer. -/
def bytes_of_words : List Nat → List Nat
  | [] => []
  | v :: vs =>
    byte_of_word v 0 :: byte_of_word v 1 :: byte_of_word v 2 :: byte_of_word v 3 ::
      bytes_of_words vs

/-- The 32-bit word held by bytes `4 * k .. 4 * k + 3` of a byte array. -/
def word_at (m : List Nat) (k : Nat) : Nat :=
  m.getD (4 * k) 0 + 256 * m.getD (4 * k + 1) 0 + 65536 * m.getD (4 * k + 2) 0
    + 16777216 * m.getD (4 * k + 3) 0

/-- The call `memcpy(dst + doff, src + soff, n)`: `n` bytes of `src` replace `n`
bytes of `dst`.  A copy of zero bytes touches no memory; any other copy needs
both byte ranges inside their objects. -/
def memcpy (dst : List Nat) (doff : Nat) (src : List Nat) (soff n : Nat) : Option (List Nat) :=
  if n = 0 then some dst
  else if doff + n ≤ dst.length ∧ soff + n ≤ src.length then
    some (dst.take doff ++ ((src.drop soff).take n ++ dst.drop (doff + n)))
  else none

/-- The assignment `buf[idx] = v` to an array of words. -/
def store (buf : List Nat) (idx v : Nat) : Option (List Nat) :=
  if idx < buf.length then some (buf.set idx v) else none

/-- A loop `for (i = start; ...; i++)` that runs its body `count` times; the body
may fail, and then so does the loop. -/
def for_loop {σ : Type} (body : Nat → σ → Option σ) : Nat → Nat → σ → Option σ
  | 0, _, s => some s
  | count + 1, i, s =>
    match body i s with
    | none => none
    | some s' => for_loop body count (i + 1) s'

/-! ## The device -/

/-- The values of the function pointer `flush` of `struct _fb`: null as `calloc`
leaves it, or one of the two functions `fb_query_device` stores in it. -/
inductive flush_fn where
  | null
  | generic
  | xrgb32
  deriving DecidableEq

/-- The struct `_fb`, without the device name, the file descriptor and the
channel bit layout, which no function modelled here reads.  `map_addr` is the
mapped device memory, `size` bytes long; `shadow_buf` is the shadow buffer.
`bpp` and `row_stride` are `unsigned int`, `pause_count` is `int`. -/
structure fb_t where
  map_addr : List Nat
  shadow_buf : List Nat
  bpp : Nat
  row_stride : Nat
  area : fb_area_t
  area_to_flush : fb_area_t
  flush : flush_fn
  pause_count : Int
  deriving DecidableEq

/-- The function `flush_generic` (lines 477-499): one `memcpy` of
`width * bpp` bytes for each row of the pending region.  The unused scratch
buffer `row_buf` is left out. -/
def flush_generic (buf : fb_t) : Option fb_t :=
  let x1 := toULong buf.area_to_flush.x
  let y1 := toULong buf.area_to_flush.y
  let y2 := uadd y1 buf.area_to_flush.height
  match for_loop (fun row m =>
      let offset := uadd (umul (umul row buf.row_stride) buf.bpp) (umul x1 buf.bpp)
      memcpy m offset (bytes_of_words buf.shadow_buf)
        (4 * uadd (umul row buf.area.width) x1) (umul buf.area_to_flush.width buf.bpp))
    (y2 - y1) y1 buf.map_addr with
  | none => none
  | some m => some { buf with map_addr := m }

/-- The function `flush_xrgb32` (lines 501-524).  `dst` and `src` are byte
offsets into the mapped memory and into the bytes of the shadow buffer.  The
stride `row_stride * 4` is an `unsigned int` product. -/
def flush_xrgb32 (buf : fb_t) : Option fb_t :=
  let x1 := toULong buf.area_to_flush.x
  let y1 := toULong buf.area_to_flush.y
  let y2 := uadd y1 buf.area_to_flush.height
  let dst := umul (uadd (umul y1 buf.row_stride) x1) 4
  let src := 4 * uadd (umul y1 buf.area.width) x1
  if buf.area_to_flush.width = buf.row_stride then
    match memcpy buf.map_addr dst (bytes_of_words buf.shadow_buf) src
        (umul (umul buf.area_to_flush.width buf.area_to_flush.height) 4) with
    | none => none
    | some m => some { buf with map_addr := m }
  else
    match for_loop (fun _ (st : List Nat × Nat × Nat) =>
        match memcpy st.1 st.2.1 (bytes_of_words buf.shadow_buf) st.2.2
            (umul buf.area_to_flush.width 4) with
        | none => none
        | some m => some (m, st.2.1 + (buf.row_stride * 4) % UINT_MOD,
            st.2.2 + umul buf.area.width 4))
      (y2 - y1) y1 (buf.map_addr, dst, src) with
    | none => none
    | some st => some { buf with map_addr := st.1 }

/-- The call `(*buf->flush)(buf)`; calling a null pointer has no defined result. -/
def call_flush (buf : fb_t) : Option fb_t :=
  match buf.flush with
  | flush_fn.null => none
  | flush_fn.generic => flush_generic buf
  | flush_fn.xrgb32 => flush_xrgb32 buf

/-- The function `fb_flush` (lines 153-164). -/
def fb_flush (buf : fb_t) : Option (Bool × fb_t) :=
  if buf.pause_count > 0 then some (true, buf)
  else
    match call_flush buf with
    | none => none
    | some buf' =>
      some (true, { buf' with
        area_to_flush :=
          { x := toLong (usub buf'.area.width 1)
            y := toLong (usub buf'.area.height 1)
            width := 0
            height := 0 } })

/-- The function `fb_add_area_to_flush_area` (lines 235-244). -/
def fb_add_area_to_flush_area (buf : fb_t) (area : fb_area_t) : fb_t :=
  let cropped_area := fb_area_intersect area buf.area
  if cropped_area.width = 0 ∨ cropped_area.height = 0 then buf
  else { buf with area_to_flush := fb_area_union buf.area_to_flush cropped_area }

/-- The two nested loops of `fb_fill_with_argb32_data` (lines 254-260) on the
shadow buffer.  `row` and `column` are compared and used as `unsigned long`. -/
def fill_shadow (W : Nat) (area : fb_area_t) (x y : Nat) (data shadow : List Nat) :
    Option (List Nat) :=
  for_loop (fun row sh =>
      for_loop (fun column sh =>
          match data[uadd (umul area.width row) column]? with
          | none => none
          | some v => store sh (uadd (usub (umul (usub row y) W) x) column) v)
        (uadd x area.width - x) x sh)
    (uadd y area.height - y) y shadow

/-- The function `fb_fill_with_argb32_data` (lines 247-264); `area = none` is the
null pointer. -/
def fb_fill_with_argb32_data (buf : fb_t) (area : Option fb_area_t) (x y : Nat)
    (data : List Nat) : Option (Bool × fb_t) :=
  let area := match area with
    | none => buf.area
    | some a => a
  match fill_shadow buf.area.width area x y data buf.shadow_buf with
  | none => none
  | some sh => fb_flush (fb_add_area_to_flush_area { buf with shadow_buf := sh } area)

/-- One call of `fb_fill_with_argb32_data` with a region given: the region, the
offsets `x` and `y`, and the pixel data. -/
structure fill_call where
  area : fb_area_t
  x : Nat
  y : Nat
  data : List Nat

/-- A sequence of fills, each on the device the previous one left, all of them
returning `true`. -/
def fill_sequence (buf : fb_t) : List fill_call → Option fb_t
  | [] => some buf
  | c :: rest =>
    match fb_fill_with_argb32_data buf (some c.area) c.x c.y c.data with
    | some (true, buf') => fill_sequence buf' rest
    | _ => none

/-- The mapped memory `m'` is `m` with `count` rows of `n` bytes replaced: row
`k` occupies the bytes from `dst + k * ds` on and holds the bytes of `sb` from
`src + k * ss` on; every byte outside the rows is as in `m`. -/
def RowsCopied (m m' sb : List Nat) (count n dst ds src ss : Nat) : Prop :=
  m'.length = m.length ∧
  (∀ k, k < count → ∀ q, q < n → m'[dst + k * ds + q]? = sb[src + k * ss + q]?) ∧
  (∀ p, (∀ k, k < count → p < dst + k * ds ∨ dst + k * ds + n ≤ p) → m'[p]? = m[p]?)

/-- Rectangle `r` lies inside rectangle `v`, both taken with exact edges. -/
def fb_area_t.within (r v : fb_area_t) : Prop :=
  v.x ≤ r.x ∧ r.x + (r.width : Int) ≤ v.x + (v.width : Int) ∧
  v.y ≤ r.y ∧ r.y + (r.height : Int) ≤ v.y + (v.height : Int)

instance (r v : fb_area_t) : Decidable (r.within v) := by
  unfold fb_area_t.within; infer_instance

/-- What `fb_open` establishes and every function modelled here keeps
(lines 578-592, 607, 631): the visible area is read from 32-bit fields of the
mode, `row_stride` is the 32-bit line length divided by `bpp`, the mapping is
`height * row_stride * bpp` bytes long, the shadow buffer holds
`width * height` 32-bit words. -/
def fb_t.wf (buf : fb_t) : Prop :=
  0 ≤ buf.area.x ∧ buf.area.x < (UINT_MOD : Int) ∧
  0 ≤ buf.area.y ∧ buf.area.y < (UINT_MOD : Int) ∧
  buf.area.width < UINT_MOD ∧ buf.area.height < UINT_MOD ∧
  buf.row_stride * buf.bpp < UINT_MOD ∧
  buf.map_addr.length = buf.area.height * buf.row_stride * buf.bpp ∧
  buf.shadow_buf.length = buf.area.width * buf.area.height ∧
  (∀ v ∈ buf.shadow_buf, v < UINT_MOD)

instance (buf : fb_t) : Decidable buf.wf := by
  unfold fb_t.wf; infer_instance

/-- The part of the device invariant the flush functions rely on when a pixel
takes four bytes: the row stride covers the visible width, and the mapping and
the shadow buffer have the sizes `fb_open` gives them. -/
def fb_t.sized32 (buf : fb_t) : Prop :=
  buf.area.width ≤ buf.row_stride ∧ buf.row_stride * 4 < UINT_MOD ∧
  buf.area.height < UINT_MOD ∧
  buf.map_addr.length = buf.area.height * buf.row_stride * 4 ∧
  buf.shadow_buf.length = buf.area.width * buf.area.height

/-! ## Sample devices -/

/-- The device of the end-to-end scenarios of the specification: 2 x 2 visible
pixels at the origin, four bytes per pixel, row stride `S`, fast path selected,
not paused, nothing pending, the shadow buffer zeroed and every mapped byte
`0xEE`. -/
def scenario_device (S : Nat) : fb_t :=
  { map_addr := List.replicate (2 * S * 4) 0xEE
    shadow_buf := [0, 0, 0, 0]
    bpp := 4
    row_stride := S
    area := ⟨0, 0, 2, 2⟩
    area_to_flush := ⟨1, 1, 0, 0⟩
    flush := flush_fn.xrgb32
    pause_count := 0 }

/-- The scenario device with row stride 4 after the four pixels
`0x11, 0x22, 0x33, 0x44` were stored in the shadow buffer and the whole visible
area was marked pending. -/
def pending_device : fb_t :=
  { scenario_device 4 with
    shadow_buf := [0x11, 0x22, 0x33, 0x44]
    area_to_flush := ⟨0, 0, 2, 2⟩ }

/-- Rectangle `p` is the bounding box of the rectangles `rs`: it is empty when
there are none; otherwise it covers each of them and each of its four edges is
an edge of one of them, which makes it the smallest covering rectangle. -/
def is_bounding_box (p : fb_area_t) (rs : List fb_area_t) : Prop :=
  (rs = [] → p.width = 0) ∧
  (rs ≠ [] →
    (∀ q, q ∈ rs → p.x ≤ q.x ∧ p.y ≤ q.y ∧
      q.x + (q.width : Int) ≤ p.x + (p.width : Int) ∧
      q.y + (q.height : Int) ≤ p.y + (p.height : Int)) ∧
    (∃ q, q ∈ rs ∧ p.x = q.x) ∧ (∃ q, q ∈ rs ∧ p.y = q.y) ∧
    (∃ q, q ∈ rs ∧ p.x + (p.width : Int) = q.x + (q.width : Int)) ∧
    (∃ q, q ∈ rs ∧ p.y + (p.height : Int) = q.y + (q.height : Int)))

/-- The scenario device with row stride 2 and the pause counter at 1. -/
def paused_device : fb_t :=
  { scenario_device 2 with pause_count := 1 }

/-- Two fills of the paused device with disjoint one-pixel regions in opposite
corners. -/
def two_fills : List fill_call :=
  [{ area := ⟨0, 0, 1, 1⟩, x := 0, y := 0, data := [0xAA] },
   { area := ⟨1, 1, 1, 1⟩, x := 0, y := 0, data := [0xBB] }]

/-! ## Facts of machine arithmetic -/

theorem toULong_lt (i : Int) : toULong i < ULONG_MOD := by
  unfold toULong ULONG_MOD; omega

theorem toULong_of_nonneg (i : Int) (h0 : 0 ≤ i) (h1 : i < (ULONG_MOD : Int)) :
    toULong i = i.toNat := by
  unfold toULong ULONG_MOD at *; omega

theorem usub_lt (a b : Nat) : usub a b < ULONG_MOD := by
  unfold usub ULONG_MOD; omega

theorem UMAX_comm (a b : Nat) : UMAX a b = UMAX b a := by
  unfold UMAX; split_ifs <;> omega

theorem MIN_comm (a b : Int) : MIN a b = MIN b a := by
  unfold MIN; split_ifs <;> omega

theorem MIN_eq_min (a b : Int) : MIN a b = min a b := by
  unfold MIN; split_ifs <;> omega

theorem MAX_eq_max (a b : Int) : MAX a b = max a b := by
  unfold MAX; split_ifs <;> omega

theorem fb_area_union_of_nonempty (a b : fb_area_t) (ha : a.width ≠ 0) (hb : b.width ≠ 0) :
    fb_area_union a b =
      { x := MIN a.x b.x
        y := MIN a.y b.y
        width := usub (UMAX (uadd (toULong a.x) a.width) (uadd (toULong b.x) b.width))
          (toULong (MIN a.x b.x))
        height := usub (UMAX (uadd (toULong a.y) a.height) (uadd (toULong b.y) b.height))
          (toULong (MIN a.y b.y)) } := by
  simp [fb_area_union, ha, hb]

theorem fb_area_union_comm_iff (a b : fb_area_t) :
    fb_area_union a b = fb_area_union b a ↔ (a.width ≠ 0 ∨ b.width ≠ 0 ∨ a = b) := by
  by_cases ha : a.width = 0 <;> by_cases hb : b.width = 0
  · simp only [fb_area_union, ha, hb, if_true]
    constructor
    · intro h; exact Or.inr (Or.inr h.symm)
    · intro h
      rcases h with h | h | h
      · exact absurd rfl h
      · exact absurd rfl h
      · exact h.symm
  · simp [fb_area_union, ha, hb]
  · simp [fb_area_union, ha, hb]
  · rw [fb_area_union_of_nonempty a b ha hb, fb_area_union_of_nonempty b a hb ha]
    rw [MIN_comm b.x a.x, MIN_comm b.y a.y, UMAX_comm (uadd (toULong b.x) b.width),
      UMAX_comm (uadd (toULong b.y) b.height)]
    simp [ha]

/-- With non-negative edges that fit a `long`, the unsigned comparison of the
edges agrees with the comparison of the exact sums. -/
theorem union_span (ax bx : Int) (aw bw : Nat)
    (hax : -(LONG_LIM : Int) ≤ ax) (hbx : -(LONG_LIM : Int) ≤ bx)
    (haw : 0 < aw) (hbw : 0 < bw)
    (hae0 : 0 ≤ ax + aw) (hae : ax + aw < (LONG_LIM : Int))
    (hbe0 : 0 ≤ bx + bw) (hbe : bx + bw < (LONG_LIM : Int)) :
    MIN ax bx + ((usub (UMAX (uadd (toULong ax) aw) (uadd (toULong bx) bw))
      (toULong (MIN ax bx)) : Nat) : Int) = max (ax + aw) (bx + bw) := by
  unfold usub UMAX uadd toULong MIN ULONG_MOD LONG_LIM at *
  split_ifs <;> omega

/-- Invariant rule for `for_loop`: an invariant that holds at the start and is
kept by every iteration, which also does not fail, holds for the result. -/
theorem for_loop_inv {σ : Type} (body : Nat → σ → Option σ) (Inv : Nat → σ → Prop) :
    ∀ (count start : Nat) (s : σ), Inv 0 s →
      (∀ k, k < count → ∀ t, Inv k t → ∃ t', body (start + k) t = some t' ∧ Inv (k + 1) t') →
      ∃ t, for_loop body count start s = some t ∧ Inv count t := by
  intro count
  induction count generalizing Inv with
  | zero =>
    intro start s h0 _
    exact ⟨s, rfl, h0⟩
  | succ n ih =>
    intro start s h0 hstep
    obtain ⟨t1, hb, h1⟩ := hstep 0 (Nat.succ_pos n) s h0
    have hb' : body start s = some t1 := by simpa using hb
    obtain ⟨t, ht, hI⟩ := ih (fun k t => Inv (k + 1) t) (start + 1) t1 h1 (by
      intro k hk t hIt
      have := hstep (k + 1) (Nat.succ_lt_succ hk) t hIt
      have e : start + 1 + k = start + (k + 1) := by omega
      rw [e]
      exact this)
    refine ⟨t, ?_, hI⟩
    simp only [for_loop, hb']
    exact ht

theorem length_bytes_of_words (l : List Nat) : (bytes_of_words l).length = 4 * l.length := by
  induction l with
  | nil => rfl
  | cons v vs ih => simp only [bytes_of_words, List.length_cons, ih]; omega

theorem getElem?_bytes_of_words (l : List Nat) :
    ∀ (k c : Nat), c < 4 →
      (bytes_of_words l)[4 * k + c]? = (l[k]?).map (fun v => byte_of_word v c) := by
  induction l with
  | nil => intro k c _; simp [bytes_of_words]
  | cons v vs ih =>
    intro k c hc
    cases k with
    | zero =>
      have : c = 0 ∨ c = 1 ∨ c = 2 ∨ c = 3 := by omega
      rcases this with h | h | h | h <;> subst h <;> simp [bytes_of_words]
    | succ k =>
      have e : 4 * (k + 1) + c = (4 * k + c) + 1 + 1 + 1 + 1 := by omega
      rw [e]
      simp only [bytes_of_words, List.getElem?_cons_succ]
      exact ih k c hc

theorem word_of_bytes (v : Nat) (hv : v < UINT_MOD) :
    byte_of_word v 0 + 256 * byte_of_word v 1 + 65536 * byte_of_word v 2
      + 16777216 * byte_of_word v 3 = v := by
  unfold byte_of_word UINT_MOD at *
  norm_num
  omega

theorem memcpy_zero (dst : List Nat) (doff : Nat) (src : List Nat) (soff : Nat) :
    memcpy dst doff src soff 0 = some dst := by
  simp [memcpy]

theorem memcpy_spec (dst : List Nat) (doff : Nat) (src : List Nat) (soff n : Nat)
    (hd : doff + n ≤ dst.length) (hs : soff + n ≤ src.length) :
    ∃ m, memcpy dst doff src soff n = some m ∧ m.length = dst.length ∧
      (∀ q, q < n → m[doff + q]? = src[soff + q]?) ∧
      (∀ p, (p < doff ∨ doff + n ≤ p) → m[p]? = dst[p]?) := by
  by_cases hn : n = 0
  · subst hn
    refine ⟨dst, memcpy_zero _ _ _ _, rfl, ?_, ?_⟩
    · intro q hq; omega
    · intro p _; rfl
  · refine ⟨dst.take doff ++ ((src.drop soff).take n ++ dst.drop (doff + n)), ?_, ?_, ?_, ?_⟩
    · simp [memcpy, hn, hd, hs]
    · simp only [List.length_append, List.length_take, List.length_drop]
      omega
    · intro q hq
      have h1 : (dst.take doff).length = doff := by
        simp only [List.length_take]; omega
      have h2 : ((src.drop soff).take n).length = n := by
        simp only [List.length_take, List.length_drop]; omega
      rw [List.getElem?_append_right (by omega), h1,
        List.getElem?_append_left (by omega)]
      have e : doff + q - doff = q := by omega
      rw [e, List.getElem?_take_of_lt hq, List.getElem?_drop]
    · intro p hp
      have h1 : (dst.take doff).length = doff := by
        simp only [List.length_take]; omega
      have h2 : ((src.drop soff).take n).length = n := by
        simp only [List.length_take, List.length_drop]; omega
      rcases hp with hp | hp
      · rw [List.getElem?_append_left (by omega), List.getElem?_take_of_lt hp]
      · rw [List.getElem?_append_right (by omega), h1,
          List.getElem?_append_right (by omega), h2, List.getElem?_drop]
        congr 1
        omega

theorem RowsCopied_unique (m m1 m2 sb : List Nat) (count n dst ds src ss : Nat)
    (h1 : RowsCopied m m1 sb count n dst ds src ss)
    (h2 : RowsCopied m m2 sb count n dst ds src ss) : m1 = m2 := by
  apply List.ext_getElem?
  intro p
  by_cases h : ∃ k, k < count ∧ dst + k * ds ≤ p ∧ p < dst + k * ds + n
  · obtain ⟨k, hk, hlo, hhi⟩ := h
    have e : p = dst + k * ds + (p - (dst + k * ds)) := by omega
    rw [e, h1.2.1 k hk _ (by omega), h2.2.1 k hk _ (by omega)]
  · have hout : ∀ k, k < count → p < dst + k * ds ∨ dst + k * ds + n ≤ p := by
      intro k hk
      by_contra hc
      exact h ⟨k, hk, by omega, by omega⟩
    rw [h1.2.2 p hout, h2.2.2 p hout]

theorem RowsCopied_zero (m sb : List Nat) (n dst ds src ss : Nat) :
    RowsCopied m m sb 0 n dst ds src ss :=
  ⟨rfl, fun k hk => absurd hk (Nat.not_lt_zero k), fun _ _ => rfl⟩

/-- Copying one more row keeps the description of the mapped memory. -/
theorem RowsCopied_step (m t sb : List Nat) (k n dst ds src ss : Nat)
    (hI : RowsCopied m t sb k n dst ds src ss) (hn : n ≤ ds)
    (hd : dst + k * ds + n ≤ m.length) (hs : src + k * ss + n ≤ sb.length) :
    ∃ m', memcpy t (dst + k * ds) sb (src + k * ss) n = some m' ∧
      RowsCopied m m' sb (k + 1) n dst ds src ss := by
  obtain ⟨hlen, hrows, hrest⟩ := hI
  obtain ⟨m', hm, hl, hin, hout⟩ :=
    memcpy_spec t (dst + k * ds) sb (src + k * ss) n (by omega) hs
  refine ⟨m', hm, by omega, ?_, ?_⟩
  · intro k' hk' q hq
    by_cases e : k' = k
    · subst e
      exact hin q hq
    · have hlt : k' + 1 ≤ k := by omega
      have hmul : (k' + 1) * ds ≤ k * ds := Nat.mul_le_mul_right ds hlt
      rw [Nat.add_mul, Nat.one_mul] at hmul
      rw [hout _ (Or.inl (by omega))]
      exact hrows k' (by omega) q hq
  · intro p hp
    rw [hout p (hp k (Nat.lt_succ_self k))]
    exact hrest p (fun k' hk' => hp k' (by omega))

/-- A loop that copies row `k` to the offset `f` gives and from the offset `g`
gives, both advancing by a fixed stride. -/
theorem rows_loop (m sb : List Nat) (f g : Nat → Nat) (count start n dst ds src ss : Nat)
    (hn : n ≤ ds)
    (hf : ∀ k, k < count → f (start + k) = dst + k * ds)
    (hg : ∀ k, k < count → g (start + k) = src + k * ss)
    (hd : ∀ k, k < count → dst + k * ds + n ≤ m.length)
    (hs : ∀ k, k < count → src + k * ss + n ≤ sb.length) :
    ∃ m', for_loop (fun row t => memcpy t (f row) sb (g row) n) count start m = some m' ∧
      RowsCopied m m' sb count n dst ds src ss := by
  apply for_loop_inv (fun row t => memcpy t (f row) sb (g row) n)
    (fun k t => RowsCopied m t sb k n dst ds src ss) count start m
    (RowsCopied_zero m sb n dst ds src ss)
  intro k hk t hI
  simp only [hf k hk, hg k hk]
  exact RowsCopied_step m t sb k n dst ds src ss hI hn (hd k hk) (hs k hk)

/-- A loop that copies a row and then advances both pointers by their strides. -/
theorem rows_loop_ptr (m sb : List Nat) (count start n dst ds src ss : Nat)
    (hn : n ≤ ds)
    (hd : ∀ k, k < count → dst + k * ds + n ≤ m.length)
    (hs : ∀ k, k < count → src + k * ss + n ≤ sb.length) :
    ∃ st, for_loop (fun _ (st : List Nat × Nat × Nat) =>
        match memcpy st.1 st.2.1 sb st.2.2 n with
        | none => none
        | some t => some (t, st.2.1 + ds, st.2.2 + ss)) count start (m, dst, src) = some st ∧
      RowsCopied m st.1 sb count n dst ds src ss := by
  obtain ⟨st, hst, _, _, hI⟩ := for_loop_inv (fun _ (st : List Nat × Nat × Nat) =>
        match memcpy st.1 st.2.1 sb st.2.2 n with
        | none => none
        | some t => some (t, st.2.1 + ds, st.2.2 + ss))
    (fun k st => st.2.1 = dst + k * ds ∧ st.2.2 = src + k * ss ∧
      RowsCopied m st.1 sb k n dst ds src ss) count start (m, dst, src)
    ⟨by simp, by simp, RowsCopied_zero m sb n dst ds src ss⟩
    (by
      intro k hk st hI
      obtain ⟨h1, h2, h3⟩ := hI
      obtain ⟨m', hm, hR⟩ :=
        RowsCopied_step m st.1 sb k n dst ds src ss h3 hn (hd k hk) (hs k hk)
      refine ⟨(m', st.2.1 + ds, st.2.2 + ss), ?_, ?_, ?_, hR⟩
      · simp only [h1, h2, hm]
      · simp only [h1, Nat.add_mul, Nat.one_mul]; omega
      · simp only [h2, Nat.add_mul, Nat.one_mul]; omega)
  exact ⟨st, hst, hI⟩

/-- One copy of `count * n` bytes is `count` rows of `n` bytes with stride `n`. -/
theorem rows_contiguous (m sb : List Nat) (count n dst src : Nat)
    (hd : dst + count * n ≤ m.length) (hs : src + count * n ≤ sb.length) :
    ∃ m', memcpy m dst sb src (count * n) = some m' ∧
      RowsCopied m m' sb count n dst n src n := by
  obtain ⟨m', hm, hl, hin, hout⟩ := memcpy_spec m dst sb src (count * n) hd hs
  refine ⟨m', hm, hl, ?_, ?_⟩
  · intro k hk q hq
    have hmul : (k + 1) * n ≤ count * n := Nat.mul_le_mul_right n hk
    rw [Nat.add_mul, Nat.one_mul] at hmul
    have e1 : dst + k * n + q = dst + (k * n + q) := by omega
    have e2 : src + k * n + q = src + (k * n + q) := by omega
    rw [e1, e2]
    exact hin _ (by omega)
  · intro p hp
    apply hout
    by_contra hc
    have hlo : dst ≤ p := by omega
    have hhi : p < dst + count * n := by omega
    have hnpos : 0 < n := by
      rcases Nat.eq_zero_or_pos n with h | h
      · subst h; simp at hhi; omega
      · exact h
    have hk : (p - dst) / n < count := by
      rw [Nat.div_lt_iff_lt_mul hnpos]; omega
    have hdm := Nat.div_add_mod (p - dst) n
    have hmod := Nat.mod_lt (p - dst) hnpos
    rw [Nat.mul_comm] at hdm
    rcases hp _ hk with h | h <;> omega

/-! ## The flush functions -/

/-- Row `k` of a region inside the visible area stays inside the mapping and
inside the shadow buffer. -/
theorem row_bounds (x1 y1 w h W H S k : Nat) (hk : k < h) (hx : x1 + w ≤ W)
    (hy : y1 + h ≤ H) (hWS : W ≤ S) :
    4 * (y1 * S + x1) + k * (4 * S) + 4 * w ≤ H * S * 4 ∧
    4 * (y1 * W + x1) + k * (4 * W) + 4 * w ≤ 4 * (W * H) := by
  have h1 : (y1 + k + 1) * S ≤ H * S := Nat.mul_le_mul_right S (by omega)
  have h2 : (y1 + k + 1) * W ≤ H * W := Nat.mul_le_mul_right W (by omega)
  have e1 : (y1 + k + 1) * S = y1 * S + k * S + S := by ring
  have e2 : (y1 + k + 1) * W = y1 * W + k * W + W := by ring
  have e3 : k * (4 * S) = 4 * (k * S) := by ring
  have e4 : k * (4 * W) = 4 * (k * W) := by ring
  have e5 : W * H = H * W := by ring
  constructor <;> omega

theorem for_loop_const {σ : Type} (body : Nat → σ → Option σ) (P : σ → Prop)
    (count start : Nat) (s : σ) (h0 : P s)
    (hstep : ∀ i t, P t → ∃ t', body i t = some t' ∧ P t') :
    ∃ t, for_loop body count start s = some t ∧ P t :=
  for_loop_inv body (fun _ t => P t) count start s h0 (fun k _ t ht => hstep (start + k) t ht)

theorem flush_xrgb32_of_width_zero (buf : fb_t) (hw : buf.area_to_flush.width = 0) :
    flush_xrgb32 buf = some buf := by
  unfold flush_xrgb32
  simp only [hw]
  split_ifs with hS
  · simp [umul, memcpy_zero]
  · obtain ⟨st, hst, hP⟩ := for_loop_const (fun _ (st : List Nat × Nat × Nat) =>
        match memcpy st.1 st.2.1 (bytes_of_words buf.shadow_buf) st.2.2 (umul 0 4) with
        | none => none
        | some m => some (m, st.2.1 + (buf.row_stride * 4) % UINT_MOD,
            st.2.2 + umul buf.area.width 4))
      (fun st => st.1 = buf.map_addr)
      (uadd (toULong buf.area_to_flush.y) buf.area_to_flush.height - toULong buf.area_to_flush.y)
      (toULong buf.area_to_flush.y)
      (buf.map_addr, umul (uadd (umul (toULong buf.area_to_flush.y) buf.row_stride)
        (toULong buf.area_to_flush.x)) 4,
        4 * uadd (umul (toULong buf.area_to_flush.y) buf.area.width)
          (toULong buf.area_to_flush.x)) rfl
      (by
        intro i t ht
        refine ⟨(t.1, t.2.1 + (buf.row_stride * 4) % UINT_MOD,
          t.2.2 + umul buf.area.width 4), ?_, ht⟩
        simp [umul, memcpy_zero])
    simp only [hst, hP]

theorem flush_generic_of_width_zero (buf : fb_t) (hw : buf.area_to_flush.width = 0) :
    flush_generic buf = some buf := by
  unfold flush_generic
  simp only [hw]
  obtain ⟨m, hm, hP⟩ := for_loop_const (fun row m =>
      memcpy m (uadd (umul (umul row buf.row_stride) buf.bpp)
          (umul (toULong buf.area_to_flush.x) buf.bpp))
        (bytes_of_words buf.shadow_buf)
        (4 * uadd (umul row buf.area.width) (toULong buf.area_to_flush.x)) (umul 0 buf.bpp))
    (fun m => m = buf.map_addr)
    (uadd (toULong buf.area_to_flush.y) buf.area_to_flush.height - toULong buf.area_to_flush.y)
    (toULong buf.area_to_flush.y) buf.map_addr rfl
    (by
      intro i t ht
      refine ⟨t, ?_, ht⟩
      simp [umul, memcpy_zero])
  simp only [hm, hP]

theorem flush_xrgb32_of_height_zero (buf : fb_t) (hh : buf.area_to_flush.height = 0) :
    flush_xrgb32 buf = some buf := by
  have hy := toULong_lt buf.area_to_flush.y
  have hc : uadd (toULong buf.area_to_flush.y) 0 - toULong buf.area_to_flush.y = 0 := by
    unfold uadd ULONG_MOD at *; omega
  unfold flush_xrgb32
  simp only [hh, hc, for_loop]
  split_ifs with hS
  · simp [umul, memcpy_zero]
  · rfl

theorem flush_generic_of_height_zero (buf : fb_t) (hh : buf.area_to_flush.height = 0) :
    flush_generic buf = some buf := by
  have hy := toULong_lt buf.area_to_flush.y
  have hc : uadd (toULong buf.area_to_flush.y) 0 - toULong buf.area_to_flush.y = 0 := by
    unfold uadd ULONG_MOD at *; omega
  unfold flush_generic
  simp only [hh, hc, for_loop]

/-- The fast path copies the rows of the pending region, and nothing else. -/
theorem flush_xrgb32_rows (buf : fb_t)
    (hin : buf.area_to_flush.within ⟨0, 0, buf.area.width, buf.area.height⟩)
    (hWS : buf.area.width ≤ buf.row_stride) (hS : buf.row_stride * 4 < UINT_MOD)
    (hH : buf.area.height < ULONG_MOD)
    (hmap : buf.map_addr.length = buf.area.height * buf.row_stride * 4)
    (hsz : buf.area.height * buf.row_stride * 4 < ULONG_MOD)
    (hsh : buf.shadow_buf.length = buf.area.width * buf.area.height) :
    ∃ m', flush_xrgb32 buf = some { buf with map_addr := m' } ∧
      RowsCopied buf.map_addr m' (bytes_of_words buf.shadow_buf)
        buf.area_to_flush.height (4 * buf.area_to_flush.width)
        (4 * (buf.area_to_flush.y.toNat * buf.row_stride + buf.area_to_flush.x.toNat))
        (4 * buf.row_stride)
        (4 * (buf.area_to_flush.y.toNat * buf.area.width + buf.area_to_flush.x.toNat))
        (4 * buf.area.width) := by
  by_cases hw0 : buf.area_to_flush.width = 0
  · refine ⟨buf.map_addr, flush_xrgb32_of_width_zero buf hw0, rfl, ?_, fun _ _ => rfl⟩
    intro k _ q hq
    rw [hw0] at hq
    omega
  by_cases hh0 : buf.area_to_flush.height = 0
  · refine ⟨buf.map_addr, flush_xrgb32_of_height_zero buf hh0, ?_⟩
    rw [hh0]
    exact RowsCopied_zero _ _ _ _ _ _ _
  obtain ⟨map, sh, bpp, S, ⟨ax, ay, W, H⟩, ⟨fx, fy, w, h⟩, fl, pc⟩ := buf
  simp only [fb_area_t.within] at hin
  simp only at hWS hS hH hmap hsz hsh hw0 hh0 ⊢
  obtain ⟨hx0, hxw, hy0, hyh⟩ := hin
  obtain ⟨x1, rfl⟩ := Int.eq_ofNat_of_zero_le hx0
  obtain ⟨y1, rfl⟩ := Int.eq_ofNat_of_zero_le hy0
  have hxw' : x1 + w ≤ W := by omega
  have hyh' : y1 + h ≤ H := by omega
  have hb := fun k (hk : k < h) => row_bounds x1 y1 w h W H S k hk hxw' hyh' hWS
  have hb0 := hb 0 (by omega)
  have hlen : (bytes_of_words sh).length = 4 * (W * H) := by
    rw [length_bytes_of_words, hsh]
  have hWH : W * H ≤ H * S := by
    rw [Nat.mul_comm W H]; exact Nat.mul_le_mul_left H hWS
  have hW1 : W * 1 ≤ W * H := Nat.mul_le_mul_left W (by omega)
  rw [Nat.mul_one] at hW1
  simp only [ULONG_MOD, UINT_MOD] at hS hH hsz
  have tx : toULong (x1 : Int) = x1 := by
    unfold toULong ULONG_MOD; omega
  have ty : toULong (y1 : Int) = y1 := by
    unfold toULong ULONG_MOD; omega
  have hcount : uadd y1 h - y1 = h := by
    unfold uadd ULONG_MOD; omega
  have hdst : umul (uadd (umul y1 S) x1) 4 = 4 * (y1 * S + x1) := by
    unfold umul uadd ULONG_MOD; omega
  have hsrc : uadd (umul y1 W) x1 = y1 * W + x1 := by
    unfold umul uadd ULONG_MOD; omega
  have hstride : (S * 4) % UINT_MOD = 4 * S := by
    unfold UINT_MOD; omega
  have hsstride : umul W 4 = 4 * W := by
    unfold umul ULONG_MOD; omega
  have hn : umul w 4 = 4 * w := by
    unfold umul ULONG_MOD; omega
  simp only [flush_xrgb32, Int.toNat_ofNat, tx, ty, hcount, hdst, hsrc, hstride, hsstride, hn]
  split_ifs with hwS
  · have hW : W = S := by omega
    have hlast := hb (h - 1) (by omega)
    have hk1 : (h - 1 + 1) * (4 * w) = h * (4 * w) := by
      congr 1; omega
    have e1 : (h - 1) * (4 * w) + 4 * w = h * (4 * w) := by
      rw [← hk1, Nat.add_mul, Nat.one_mul]
    have hn2 : umul (umul w h) 4 = h * (4 * w) := by
      have e2 : w * h * 4 = h * (4 * w) := by ring
      have e3 : w * h ≤ w * h * 4 := Nat.le_mul_of_pos_right _ (by omega)
      have e4 : (h - 1) * (4 * S) = (h - 1) * (4 * w) := by rw [hwS]
      unfold umul ULONG_MOD
      rw [Nat.mod_eq_of_lt (by omega), Nat.mod_eq_of_lt (by omega), e2]
    have e4 : (h - 1) * (4 * S) = (h - 1) * (4 * w) := by rw [hwS]
    have e5 : (h - 1) * (4 * W) = (h - 1) * (4 * w) := by rw [hW, hwS]
    obtain ⟨m', hm, hR⟩ := rows_contiguous map (bytes_of_words sh) h (4 * w)
      (4 * (y1 * S + x1)) (4 * (y1 * W + x1)) (by omega) (by omega)
    refine ⟨m', ?_, ?_⟩
    · rw [hn2, hm]
    · rw [hW, ← hwS]
      rw [hW, ← hwS] at hR
      exact hR
  · obtain ⟨st, hst, hR⟩ := rows_loop_ptr map (bytes_of_words sh) h y1 (4 * w)
      (4 * (y1 * S + x1)) (4 * S) (4 * (y1 * W + x1)) (4 * W) (by omega)
      (fun k hk => by have := hb k hk; omega) (fun k hk => by have := hb k hk; omega)
    refine ⟨st.1, ?_, hR⟩
    rw [hst]

/-- With four bytes per pixel the generic path copies the same rows. -/
theorem flush_generic_rows (buf : fb_t) (hbpp : buf.bpp = 4)
    (hin : buf.area_to_flush.within ⟨0, 0, buf.area.width, buf.area.height⟩)
    (hWS : buf.area.width ≤ buf.row_stride)
    (hH : buf.area.height < ULONG_MOD)
    (hmap : buf.map_addr.length = buf.area.height * buf.row_stride * 4)
    (hsz : buf.area.height * buf.row_stride * 4 < ULONG_MOD)
    (hsh : buf.shadow_buf.length = buf.area.width * buf.area.height) :
    ∃ m', flush_generic buf = some { buf with map_addr := m' } ∧
      RowsCopied buf.map_addr m' (bytes_of_words buf.shadow_buf)
        buf.area_to_flush.height (4 * buf.area_to_flush.width)
        (4 * (buf.area_to_flush.y.toNat * buf.row_stride + buf.area_to_flush.x.toNat))
        (4 * buf.row_stride)
        (4 * (buf.area_to_flush.y.toNat * buf.area.width + buf.area_to_flush.x.toNat))
        (4 * buf.area.width) := by
  by_cases hw0 : buf.area_to_flush.width = 0
  · refine ⟨buf.map_addr, flush_generic_of_width_zero buf hw0, rfl, ?_, fun _ _ => rfl⟩
    intro k _ q hq
    rw [hw0] at hq
    omega
  by_cases hh0 : buf.area_to_flush.height = 0
  · refine ⟨buf.map_addr, flush_generic_of_height_zero buf hh0, ?_⟩
    rw [hh0]
    exact RowsCopied_zero _ _ _ _ _ _ _
  obtain ⟨map, sh, bpp, S, ⟨ax, ay, W, H⟩, ⟨fx, fy, w, h⟩, fl, pc⟩ := buf
  simp only [fb_area_t.within] at hin
  simp only at hbpp hWS hH hmap hsz hsh hw0 hh0 ⊢
  subst hbpp
  obtain ⟨hx0, hxw, hy0, hyh⟩ := hin
  obtain ⟨x1, rfl⟩ := Int.eq_ofNat_of_zero_le hx0
  obtain ⟨y1, rfl⟩ := Int.eq_ofNat_of_zero_le hy0
  have hxw' : x1 + w ≤ W := by omega
  have hyh' : y1 + h ≤ H := by omega
  have hb := fun k (hk : k < h) => row_bounds x1 y1 w h W H S k hk hxw' hyh' hWS
  have hb0 := hb 0 (by omega)
  have hlen : (bytes_of_words sh).length = 4 * (W * H) := by
    rw [length_bytes_of_words, hsh]
  have hWH : W * H ≤ H * S := by
    rw [Nat.mul_comm W H]; exact Nat.mul_le_mul_left H hWS
  simp only [ULONG_MOD] at hH hsz
  have tx : toULong (x1 : Int) = x1 := by
    unfold toULong ULONG_MOD; omega
  have ty : toULong (y1 : Int) = y1 := by
    unfold toULong ULONG_MOD; omega
  have hcount : uadd y1 h - y1 = h := by
    unfold uadd ULONG_MOD; omega
  have hn : umul w 4 = 4 * w := by
    unfold umul ULONG_MOD; omega
  simp only [flush_generic, Int.toNat_ofNat, tx, ty, hcount, hn]
  obtain ⟨m', hm, hR⟩ := rows_loop map (bytes_of_words sh)
    (fun row => uadd (umul (umul row S) 4) (umul x1 4))
    (fun row => 4 * uadd (umul row W) x1) h y1 (4 * w)
    (4 * (y1 * S + x1)) (4 * S) (4 * (y1 * W + x1)) (4 * W) (by omega)
    (fun k hk => by
      have := hb k hk
      have e1 : (y1 + k) * S = y1 * S + k * S := by ring
      have e2 : k * (4 * S) = 4 * (k * S) := by ring
      simp only [umul, uadd, ULONG_MOD, e1]
      omega)
    (fun k hk => by
      have := hb k hk
      have e1 : (y1 + k) * W = y1 * W + k * W := by ring
      have e2 : k * (4 * W) = 4 * (k * W) := by ring
      have e3 : k * (4 * S) = 4 * (k * S) := by ring
      simp only [umul, uadd, ULONG_MOD, e1]
      omega)
    (fun k hk => by have := hb k hk; omega) (fun k hk => by have := hb k hk; omega)
  refine ⟨m', ?_, hR⟩
  rw [hm]

/-- A byte of a copied pixel is the byte of the shadow pixel. -/
theorem RowsCopied_byte (m m' sh : List Nat) (x1 y1 w h W S j i c : Nat)
    (hR : RowsCopied m m' (bytes_of_words sh) h (4 * w) (4 * (y1 * S + x1)) (4 * S)
      (4 * (y1 * W + x1)) (4 * W))
    (hj : j < h) (hi : i < w) (hc : c < 4) :
    m'[4 * ((y1 + j) * S + x1 + i) + c]?
      = (sh[(y1 + j) * W + x1 + i]?).map (fun v => byte_of_word v c) := by
  have e1 : 4 * ((y1 + j) * S + x1 + i) + c = 4 * (y1 * S + x1) + j * (4 * S) + (4 * i + c) := by
    ring
  have e2 : 4 * (y1 * W + x1) + j * (4 * W) + (4 * i + c) = 4 * ((y1 + j) * W + x1 + i) + c := by
    ring
  rw [e1, hR.2.1 j hj (4 * i + c) (by omega), e2]
  exact getElem?_bytes_of_words sh _ c hc

/-- A copied pixel, read back as a word, is the shadow pixel. -/
theorem RowsCopied_word (m m' sh : List Nat) (x1 y1 w h W S j i : Nat)
    (hR : RowsCopied m m' (bytes_of_words sh) h (4 * w) (4 * (y1 * S + x1)) (4 * S)
      (4 * (y1 * W + x1)) (4 * W))
    (hj : j < h) (hi : i < w) (hlen : (y1 + j) * W + x1 + i < sh.length)
    (hv : ∀ v, sh[(y1 + j) * W + x1 + i]? = some v → v < UINT_MOD) :
    sh[(y1 + j) * W + x1 + i]? = some (word_at m' ((y1 + j) * S + x1 + i)) := by
  have h0 := RowsCopied_byte m m' sh x1 y1 w h W S j i 0 hR hj hi (by omega)
  have h1 := RowsCopied_byte m m' sh x1 y1 w h W S j i 1 hR hj hi (by omega)
  have h2 := RowsCopied_byte m m' sh x1 y1 w h W S j i 2 hR hj hi (by omega)
  have h3 := RowsCopied_byte m m' sh x1 y1 w h W S j i 3 hR hj hi (by omega)
  rw [Nat.add_zero] at h0
  have hs : sh[(y1 + j) * W + x1 + i]? = some (sh[(y1 + j) * W + x1 + i]) :=
    List.getElem?_eq_getElem hlen
  have hlt : sh[(y1 + j) * W + x1 + i] < UINT_MOD := hv _ hs
  rw [hs] at h0 h1 h2 h3
  simp only [Option.map_some'] at h0 h1 h2 h3
  rw [hs]
  simp only [word_at, List.getD_eq_getElem?_getD, h0, h1, h2, h3, Option.getD_some]
  rw [word_of_bytes _ hlt]

/-- A word that is no pixel of the copied rows is unchanged. -/
theorem RowsCopied_word_out (m m' sb : List Nat) (x1 y1 w h S src ss k : Nat)
    (hR : RowsCopied m m' sb h (4 * w) (4 * (y1 * S + x1)) (4 * S) src ss)
    (hk : ∀ j i, j < h → i < w → k ≠ (y1 + j) * S + x1 + i) :
    word_at m' k = word_at m k := by
  have hb : ∀ c, c < 4 → m'[4 * k + c]? = m[4 * k + c]? := by
    intro c hc
    apply hR.2.2
    intro j hj
    have e1 : 4 * (y1 * S + x1) + j * (4 * S) = 4 * ((y1 + j) * S + x1) := by ring
    rw [e1]
    by_contra hcon
    have hlo : (y1 + j) * S + x1 ≤ k := by omega
    have hhi : k < (y1 + j) * S + x1 + w := by omega
    exact hk j (k - ((y1 + j) * S + x1)) hj (by omega) (by omega)
  have h0 := hb 0 (by omega)
  rw [Nat.add_zero] at h0
  simp only [word_at, List.getD_eq_getElem?_getD, h0, hb 1 (by omega), hb 2 (by omega),
    hb 3 (by omega)]

/-! ## The fill loops -/

theorem store_spec (sh : List Nat) (p v : Nat) (hp : p < sh.length) :
    ∃ sh', store sh p v = some sh' ∧ sh'.length = sh.length ∧ sh'[p]? = some v ∧
      (∀ q, q ≠ p → sh'[q]? = sh[q]?) := by
  refine ⟨sh.set p v, by simp [store, hp], by simp, ?_, ?_⟩
  · rw [List.getElem?_set]; simp [hp]
  · intro q hq
    rw [List.getElem?_set_ne (Ne.symm hq)]

/-- Two nested loops that store `data[g row col]` at index `f row col`: when
every access is in bounds the loops finish and keep the length. -/
theorem store_loops_total (f g : Nat → Nat → Nat) (data shadow : List Nat)
    (ch cw x y : Nat)
    (hb : ∀ k, k < ch → ∀ i, i < cw →
      f (y + k) (x + i) < shadow.length ∧ g (y + k) (x + i) < data.length) :
    ∃ sh', for_loop (fun row sh =>
        for_loop (fun col sh =>
          match data[g row col]? with
          | none => none
          | some v => store sh (f row col) v) cw x sh) ch y shadow = some sh' ∧
      sh'.length = shadow.length := by
  apply for_loop_inv _ (fun _ sh => sh.length = shadow.length) ch y shadow rfl
  intro k hk sh hlen
  apply for_loop_inv _ (fun _ t => t.length = shadow.length) cw x sh hlen
  intro i hi t ht
  obtain ⟨h1, h2⟩ := hb k hk i hi
  rw [List.getElem?_eq_getElem h2]
  obtain ⟨t', hs, hl, _, _⟩ := store_spec t (f (y + k) (x + i)) (data[g (y + k) (x + i)])
    (by omega)
  exact ⟨t', hs, by omega⟩

/-- The same loops when no two iterations store to the same index: every
stored index holds the value its iteration stored, the rest is unchanged. -/
theorem store_loops_values (f g : Nat → Nat → Nat) (data shadow : List Nat)
    (ch cw x y : Nat)
    (hb : ∀ k, k < ch → ∀ i, i < cw →
      f (y + k) (x + i) < shadow.length ∧ g (y + k) (x + i) < data.length)
    (hinj : ∀ k, k < ch → ∀ i, i < cw → ∀ k', k' < ch → ∀ i', i' < cw →
      f (y + k) (x + i) = f (y + k') (x + i') → k = k' ∧ i = i') :
    ∃ sh', for_loop (fun row sh =>
        for_loop (fun col sh =>
          match data[g row col]? with
          | none => none
          | some v => store sh (f row col) v) cw x sh) ch y shadow = some sh' ∧
      sh'.length = shadow.length ∧
      (∀ k, k < ch → ∀ i, i < cw → sh'[f (y + k) (x + i)]? = data[g (y + k) (x + i)]?) ∧
      (∀ p, (∀ k, k < ch → ∀ i, i < cw → p ≠ f (y + k) (x + i)) → sh'[p]? = shadow[p]?) := by
  obtain ⟨sh', hsh, hl, hw, hu⟩ := for_loop_inv (fun row sh =>
        for_loop (fun col sh =>
          match data[g row col]? with
          | none => none
          | some v => store sh (f row col) v) cw x sh)
    (fun k sh => sh.length = shadow.length ∧
      (∀ k', k' < k → ∀ i', i' < cw → sh[f (y + k') (x + i')]? = data[g (y + k') (x + i')]?) ∧
      (∀ p, (∀ k', k' < k → ∀ i', i' < cw → p ≠ f (y + k') (x + i')) → sh[p]? = shadow[p]?))
    ch y shadow ⟨rfl, fun k' hk' => absurd hk' (Nat.not_lt_zero k'), fun _ _ => rfl⟩
    (by
      intro k hk sh hI
      obtain ⟨hlen, hwr, hun⟩ := hI
      obtain ⟨t, ht, hl, hw, hu⟩ := for_loop_inv (fun col sh =>
            match data[g (y + k) col]? with
            | none => none
            | some v => store sh (f (y + k) col) v)
        (fun i t => t.length = shadow.length ∧
          (∀ k', k' < ch → ∀ i', i' < cw → (k' < k ∨ (k' = k ∧ i' < i)) →
            t[f (y + k') (x + i')]? = data[g (y + k') (x + i')]?) ∧
          (∀ p, (∀ k', k' < ch → ∀ i', i' < cw → (k' < k ∨ (k' = k ∧ i' < i)) →
            p ≠ f (y + k') (x + i')) → t[p]? = shadow[p]?))
        cw x sh
        ⟨hlen, fun k' _ i' hi' hc => hwr k' (by omega) i' hi',
          fun p hp => hun p (fun k' hk' i' hi' => hp k' (by omega) i' hi' (Or.inl hk'))⟩
        (by
          intro i hi t hJ
          obtain ⟨hlen', hwr', hun'⟩ := hJ
          obtain ⟨h1, h2⟩ := hb k hk i hi
          beta_reduce
          rw [List.getElem?_eq_getElem h2]
          obtain ⟨t', hs, hl, hp0, hne⟩ :=
            store_spec t (f (y + k) (x + i)) (data[g (y + k) (x + i)]) (by omega)
          refine ⟨t', hs, by omega, ?_, ?_⟩
          · intro k' hk' i' hi' hc
            by_cases e : k' = k ∧ i' = i
            · obtain ⟨rfl, rfl⟩ := e
              rw [hp0, List.getElem?_eq_getElem h2]
            · have hneq : f (y + k') (x + i') ≠ f (y + k) (x + i) := by
                intro heq
                exact e (hinj k' hk' i' hi' k hk i hi heq)
              rw [hne _ hneq]
              exact hwr' k' hk' i' hi' (by omega)
          · intro p hp
            have hpne : p ≠ f (y + k) (x + i) := hp k hk i hi (Or.inr ⟨rfl, by omega⟩)
            rw [hne p hpne]
            exact hun' p (fun k' hk' i' hi' hc => hp k' hk' i' hi' (by omega)))
      refine ⟨t, ht, hl, ?_, ?_⟩
      · intro k' hk' i' hi'
        exact hw k' (by omega) i' hi' (by omega)
      · intro p hp
        exact hu p (fun k' _ i' hi' hc => hp k' (by omega) i' hi'))
  exact ⟨sh', hsh, hl, hw, hu⟩

/-- Index arithmetic of the fill loops: the indices computed with wrap-around
never exceed the exact ones. -/
theorem fill_index_le (W w x y k i : Nat) (hx : x < ULONG_MOD) (hyk : y + k < ULONG_MOD) :
    uadd (usub (umul (usub (y + k) y) W) x) (x + i) ≤ k * W + i ∧
    uadd (umul w (y + k)) (x + i) ≤ w * (y + k) + x + i := by
  have e : usub (y + k) y = k := by
    unfold usub ULONG_MOD at *; omega
  rw [e]
  unfold usub umul uadd ULONG_MOD at *
  constructor <;> omega

/-- Index arithmetic of the fill loops when nothing wraps. -/
theorem fill_index_eq (W w x y k i : Nat) (hx : x < ULONG_MOD) (hyk : y + k < ULONG_MOD)
    (h1 : k * W + i < ULONG_MOD) (h2 : w * (y + k) + x + i < ULONG_MOD) :
    uadd (usub (umul (usub (y + k) y) W) x) (x + i) = k * W + i ∧
    uadd (umul w (y + k)) (x + i) = w * (y + k) + x + i := by
  have e : usub (y + k) y = k := by
    unfold usub ULONG_MOD at *; omega
  rw [e]
  unfold usub umul uadd ULONG_MOD at *
  constructor <;> omega

theorem loop_count_le (y h : Nat) : uadd y h - y ≤ h := by
  unfold uadd ULONG_MOD; omega

theorem loop_count_bound (y h k : Nat) (hk : k < uadd y h - y) : y + k < ULONG_MOD := by
  unfold uadd ULONG_MOD at *; omega

/-- The fill loops finish whenever the pixels they address exist. -/
theorem fill_shadow_total (W : Nat) (area : fb_area_t) (x y : Nat) (data shadow : List Nat)
    (hx : x < ULONG_MOD)
    (hsh : ∀ j i, j < area.height → i < area.width → j * W + i < shadow.length)
    (hdt : ∀ j i, j < area.height → i < area.width →
      area.width * (y + j) + x + i < data.length) :
    ∃ sh', fill_shadow W area x y data shadow = some sh' ∧ sh'.length = shadow.length := by
  unfold fill_shadow
  apply store_loops_total (fun row col => uadd (usub (umul (usub row y) W) x) col)
    (fun row col => uadd (umul area.width row) col) data shadow
  intro k hk i hi
  have hk' := Nat.lt_of_lt_of_le hk (loop_count_le y area.height)
  have hi' := Nat.lt_of_lt_of_le hi (loop_count_le x area.width)
  obtain ⟨h1, h2⟩ := fill_index_le W area.width x y k i hx (loop_count_bound y _ k hk)
  have := hsh k i hk' hi'
  have := hdt k i hk' hi'
  constructor <;> omega

theorem mul_add_inj (W k i k' i' : Nat) (hi : i < W) (hi' : i' < W)
    (h : k * W + i = k' * W + i') : k = k' ∧ i = i' := by
  rcases Nat.lt_trichotomy k k' with hlt | heq | hgt
  · have := Nat.mul_le_mul_right W (show k + 1 ≤ k' from hlt)
    rw [Nat.add_mul, Nat.one_mul] at this
    omega
  · subst heq
    exact ⟨rfl, by omega⟩
  · have := Nat.mul_le_mul_right W (show k' + 1 ≤ k from hgt)
    rw [Nat.add_mul, Nat.one_mul] at this
    omega

/-- What the fill loops leave in the shadow buffer when nothing wraps: pixel
`(i, j)` counted from the top left corner of the buffer is the data pixel
at column `x + i` of row `y + j`. -/
theorem fill_shadow_values (W : Nat) (area : fb_area_t) (x y : Nat) (data shadow : List Nat)
    (hxw : x + area.width < ULONG_MOD) (hyh : y + area.height < ULONG_MOD)
    (hW : area.width ≤ W)
    (hshN : shadow.length ≤ ULONG_MOD) (hdtN : data.length ≤ ULONG_MOD)
    (hsh : ∀ j i, j < area.height → i < area.width → j * W + i < shadow.length)
    (hdt : ∀ j i, j < area.height → i < area.width →
      area.width * (y + j) + x + i < data.length) :
    ∃ sh', fill_shadow W area x y data shadow = some sh' ∧ sh'.length = shadow.length ∧
      (∀ j i, j < area.height → i < area.width →
        sh'[j * W + i]? = data[area.width * (y + j) + x + i]?) ∧
      (∀ p, (∀ j i, j < area.height → i < area.width → p ≠ j * W + i) →
        sh'[p]? = shadow[p]?) := by
  have hch : uadd y area.height - y = area.height := by
    unfold uadd ULONG_MOD at *; omega
  have hcw : uadd x area.width - x = area.width := by
    unfold uadd ULONG_MOD at *; omega
  have hidx : ∀ k, k < area.height → ∀ i, i < area.width →
      uadd (usub (umul (usub (y + k) y) W) x) (x + i) = k * W + i ∧
      uadd (umul area.width (y + k)) (x + i) = area.width * (y + k) + x + i := by
    intro k hk i hi
    have := hsh k i hk hi
    have := hdt k i hk hi
    exact fill_index_eq W area.width x y k i (by omega) (by omega) (by omega) (by omega)
  obtain ⟨sh', hs, hl, hw, hu⟩ :=
    store_loops_values (fun row col => uadd (usub (umul (usub row y) W) x) col)
      (fun row col => uadd (umul area.width row) col) data shadow
      area.height area.width x y
      (by
        intro k hk i hi
        have := hsh k i hk hi
        have := hdt k i hk hi
        obtain ⟨e1, e2⟩ := hidx k hk i hi
        simp only [e1, e2]
        constructor <;> omega)
      (by
        intro k hk i hi k' hk' i' hi' heq
        simp only [(hidx k hk i hi).1, (hidx k' hk' i' hi').1] at heq
        exact mul_add_inj W k i k' i' (by omega) (by omega) heq)
  refine ⟨sh', ?_, hl, ?_, ?_⟩
  · unfold fill_shadow
    rw [hch, hcw]
    exact hs
  · intro j i hj hi
    have := hw j hj i hi
    simp only [(hidx j hj i hi).1, (hidx j hj i hi).2] at this
    exact this
  · intro p hp
    apply hu
    intro k hk i hi
    simp only [(hidx k hk i hi).1]
    exact hp k i hk hi

/-! ## Cropping and accumulating the pending region -/

/-- An edge that fits a `long` is computed exactly. -/
theorem edge_exact (x : Int) (w : Nat) (hx : -(LONG_LIM : Int) ≤ x)
    (hxw : x + (w : Int) < (LONG_LIM : Int)) :
    toLong (uadd (toULong x) w) = x + (w : Int) := by
  unfold toLong uadd toULong ULONG_MOD LONG_LIM at *
  split_ifs <;> omega

theorem wrapLong_of_range (i : Int) (h1 : -(LONG_LIM : Int) ≤ i) (h2 : i < (LONG_LIM : Int)) :
    wrapLong i = i := by
  unfold wrapLong toLong toULong ULONG_MOD LONG_LIM at *
  split_ifs <;> omega

theorem toULong_natCast (n : Nat) (h : n < ULONG_MOD) : toULong (n : Int) = n := by
  unfold toULong ULONG_MOD at *; omega

/-- A rectangle inside the visible area is its own intersection with it. -/
theorem fb_area_intersect_of_within (r v : fb_area_t) (hw : 0 < r.width) (hh : 0 < r.height)
    (hin : r.within v)
    (hvx : 0 ≤ v.x) (hvy : 0 ≤ v.y)
    (hvw : v.x + (v.width : Int) < (LONG_LIM : Int))
    (hvh : v.y + (v.height : Int) < (LONG_LIM : Int)) :
    fb_area_intersect r v = r := by
  obtain ⟨rx, ry, rw, rh⟩ := r
  obtain ⟨vx, vy, vw, vh⟩ := v
  simp only [fb_area_t.within] at hin
  simp only at hw hh hvx hvy hvw hvh
  obtain ⟨h1, h2, h3, h4⟩ := hin
  have hL : LONG_LIM = 9223372036854775808 := rfl
  have hN : ULONG_MOD = 18446744073709551616 := rfl
  have hrw : rw ≠ 0 := by omega
  have hvw0 : vw ≠ 0 := by omega
  have e1 := edge_exact rx rw (by omega) (by omega)
  have e2 := edge_exact vx vw (by omega) (by omega)
  have e3 := edge_exact ry rh (by omega) (by omega)
  have e4 := edge_exact vy vh (by omega) (by omega)
  have mx : MAX rx vx = rx := by rw [MAX_eq_max]; omega
  have my : MAX ry vy = ry := by rw [MAX_eq_max]; omega
  have nx : MIN (rx + rw) (vx + vw) = rx + rw := by rw [MIN_eq_min]; omega
  have ny : MIN (ry + rh) (vy + vh) = ry + rh := by rw [MIN_eq_min]; omega
  have ex : wrapLong (rx + rw - rx) = (rw : Int) := by
    rw [wrapLong_of_range _ (by omega) (by omega)]
    omega
  have ey : wrapLong (ry + rh - ry) = (rh : Int) := by
    rw [wrapLong_of_range _ (by omega) (by omega)]
    omega
  have tw : toULong (rw : Int) = rw := toULong_natCast rw (by omega)
  have th : toULong (rh : Int) = rh := toULong_natCast rh (by omega)
  have hpos : ¬ ((rw : Int) ≤ 0 ∨ (rh : Int) ≤ 0) := by omega
  simp only [fb_area_intersect, hrw, hvw0, if_false, e1, e2, e3, e4, mx, my, nx, ny, ex, ey,
    tw, th, hpos]

/-- The extent the intersection with a visible area at the origin computes. -/
theorem crop_extent (a : Int) (w W : Nat) (ha : -(LONG_LIM : Int) ≤ a)
    (hae : a + (w : Int) < (LONG_LIM : Int)) (hW : W < LONG_LIM) :
    wrapLong (MIN (toLong (uadd (toULong a) w)) (toLong (uadd (toULong 0) W)) - MAX a 0)
      = min (a + (w : Int)) (W : Int) - max a 0 := by
  have e2 : toLong (uadd (toULong 0) W) = (W : Int) := by
    have := edge_exact 0 W (by unfold LONG_LIM; omega) (by omega)
    simpa using this
  rw [edge_exact a w ha hae, e2, MIN_eq_min, MAX_eq_max]
  apply wrapLong_of_range
  · unfold LONG_LIM at *; omega
  · unfold LONG_LIM at *; omega

/-- The intersection of a rectangle whose edges fit a `long` with a visible
area at the origin is empty or lies inside the visible area. -/
theorem fb_area_intersect_cropped (a : fb_area_t) (W H : Nat) (ha : a.wf)
    (hae : a.x + (a.width : Int) < (LONG_LIM : Int))
    (hbe : a.y + (a.height : Int) < (LONG_LIM : Int))
    (hW : W < LONG_LIM) (hH : H < LONG_LIM) :
    (fb_area_intersect a ⟨0, 0, W, H⟩).width = 0 ∨
    (fb_area_intersect a ⟨0, 0, W, H⟩).height = 0 ∨
      ((fb_area_intersect a ⟨0, 0, W, H⟩).within ⟨0, 0, W, H⟩ ∧
        0 < (fb_area_intersect a ⟨0, 0, W, H⟩).width ∧
        0 < (fb_area_intersect a ⟨0, 0, W, H⟩).height) := by
  obtain ⟨ax, ay, aw, ah⟩ := a
  simp only [fb_area_t.wf] at ha
  simp only at hae hbe
  have hL : LONG_LIM = 9223372036854775808 := rfl
  have hN : ULONG_MOD = 18446744073709551616 := rfl
  by_cases haw : aw = 0
  · left; simp [fb_area_intersect, haw]
  by_cases hvw0 : W = 0
  · left; simp [fb_area_intersect, haw, hvw0]
  have ex := crop_extent ax aw W ha.1 hae hW
  have ey := crop_extent ay ah H ha.2.2.1 hbe hH
  simp only [fb_area_intersect, haw, hvw0, if_false, ex, ey]
  split_ifs with hc
  · left; rfl
  · right; right
    have t1 : toULong (min (ax + (aw : Int)) (W : Int) - max ax 0)
        = (min (ax + (aw : Int)) (W : Int) - max ax 0).toNat :=
      toULong_of_nonneg _ (by omega) (by omega)
    have t2 : toULong (min (ay + (ah : Int)) (H : Int) - max ay 0)
        = (min (ay + (ah : Int)) (H : Int) - max ay 0).toNat :=
      toULong_of_nonneg _ (by omega) (by omega)
    simp only [fb_area_t.within, t1, t2, MAX_eq_max]
    omega

/-- For rectangles at non-negative coordinates whose edges fit a `long` the
span the union computes ends at the larger of the two exact edges. -/
theorem union_span_nonneg (ax bx : Int) (aw bw : Nat) (hax : 0 ≤ ax) (hbx : 0 ≤ bx)
    (hae : ax + aw < (LONG_LIM : Int)) (hbe : bx + bw < (LONG_LIM : Int)) :
    MIN ax bx + ((usub (UMAX (uadd (toULong ax) aw) (uadd (toULong bx) bw))
      (toULong (MIN ax bx)) : Nat) : Int) = max (ax + aw) (bx + bw) := by
  unfold usub UMAX uadd toULong MIN ULONG_MOD LONG_LIM at *
  split_ifs <;> omega

/-- The union of two non-empty rectangles at non-negative coordinates is their
bounding box. -/
theorem fb_area_union_bbox (p c : fb_area_t) (hp : p.width ≠ 0) (hc : c.width ≠ 0)
    (hpx : 0 ≤ p.x) (hpy : 0 ≤ p.y) (hcx : 0 ≤ c.x) (hcy : 0 ≤ c.y)
    (hpw : p.x + (p.width : Int) < (LONG_LIM : Int))
    (hph : p.y + (p.height : Int) < (LONG_LIM : Int))
    (hcw : c.x + (c.width : Int) < (LONG_LIM : Int))
    (hch : c.y + (c.height : Int) < (LONG_LIM : Int)) :
    (fb_area_union p c).x = min p.x c.x ∧ (fb_area_union p c).y = min p.y c.y ∧
    (fb_area_union p c).x + ((fb_area_union p c).width : Int)
      = max (p.x + (p.width : Int)) (c.x + (c.width : Int)) ∧
    (fb_area_union p c).y + ((fb_area_union p c).height : Int)
      = max (p.y + (p.height : Int)) (c.y + (c.height : Int)) := by
  rw [fb_area_union_of_nonempty p c hp hc]
  exact ⟨MIN_eq_min _ _, MIN_eq_min _ _,
    union_span_nonneg p.x c.x p.width c.width hpx hcx hpw hcw,
    union_span_nonneg p.y c.y p.height c.height hpy hcy hph hch⟩

/-- The union of two non-empty rectangles inside the visible area is non-empty
and inside the visible area. -/
theorem fb_area_union_within (p c v : fb_area_t) (hp : p.width ≠ 0) (hc : c.width ≠ 0)
    (hpv : p.within v) (hcv : c.within v) (hvx : 0 ≤ v.x) (hvy : 0 ≤ v.y)
    (hvw : v.x + (v.width : Int) < (LONG_LIM : Int))
    (hvh : v.y + (v.height : Int) < (LONG_LIM : Int)) :
    (fb_area_union p c).within v ∧ (fb_area_union p c).width ≠ 0 := by
  simp only [fb_area_t.within] at hpv hcv
  obtain ⟨h1, h2, h3, h4⟩ := fb_area_union_bbox p c hp hc (by omega) (by omega) (by omega)
    (by omega) (by omega) (by omega) (by omega) (by omega)
  simp only [fb_area_t.within]
  refine ⟨⟨?_, ?_, ?_, ?_⟩, ?_⟩ <;> omega

/-! ## Consequences of the device invariant -/

theorem wf_size_lt (buf : fb_t) (hwf : buf.wf) (hbpp : buf.bpp = 4) :
    buf.row_stride * 4 < UINT_MOD ∧ buf.area.height < ULONG_MOD ∧
    buf.map_addr.length = buf.area.height * buf.row_stride * 4 ∧
    buf.area.height * buf.row_stride * 4 < ULONG_MOD ∧
    buf.shadow_buf.length = buf.area.width * buf.area.height := by
  obtain ⟨_, _, _, _, hW, hH, hS, hmap, hsh, _⟩ := hwf
  rw [hbpp] at hS hmap
  refine ⟨hS, ?_, hmap, ?_, hsh⟩
  · unfold UINT_MOD at hH; unfold ULONG_MOD; omega
  · have := Nat.mul_lt_mul'' hH hS
    rw [Nat.mul_assoc]
    unfold UINT_MOD at this; unfold ULONG_MOD; omega

/-- A pixel of a region inside the visible area is a pixel of the shadow buffer. -/
theorem pixel_index_lt (x1 y1 w h W H j i : Nat) (hx : x1 + w ≤ W) (hy : y1 + h ≤ H)
    (hj : j < h) (hi : i < w) : (y1 + j) * W + x1 + i < W * H := by
  have h1 : (y1 + j + 1) * W ≤ H * W := Nat.mul_le_mul_right W (by omega)
  have e1 : (y1 + j + 1) * W = (y1 + j) * W + W := by ring
  have e2 : W * H = H * W := by ring
  omega

/-- Word-level reading of `RowsCopied` for a pending region inside the visible
area. -/
theorem rows_words (buf : fb_t) (m' : List Nat)
    (hin : buf.area_to_flush.within ⟨0, 0, buf.area.width, buf.area.height⟩)
    (hsh : buf.shadow_buf.length = buf.area.width * buf.area.height)
    (hv : ∀ v ∈ buf.shadow_buf, v < UINT_MOD)
    (hR : RowsCopied buf.map_addr m' (bytes_of_words buf.shadow_buf)
        buf.area_to_flush.height (4 * buf.area_to_flush.width)
        (4 * (buf.area_to_flush.y.toNat * buf.row_stride + buf.area_to_flush.x.toNat))
        (4 * buf.row_stride)
        (4 * (buf.area_to_flush.y.toNat * buf.area.width + buf.area_to_flush.x.toNat))
        (4 * buf.area.width)) :
    m'.length = buf.map_addr.length ∧
    (∀ i j, i < buf.area_to_flush.width → j < buf.area_to_flush.height →
      buf.shadow_buf[(buf.area_to_flush.y.toNat + j) * buf.area.width
          + buf.area_to_flush.x.toNat + i]?
        = some (word_at m' ((buf.area_to_flush.y.toNat + j) * buf.row_stride
          + buf.area_to_flush.x.toNat + i))) ∧
    (∀ k, (∀ i j, i < buf.area_to_flush.width → j < buf.area_to_flush.height →
        k ≠ (buf.area_to_flush.y.toNat + j) * buf.row_stride + buf.area_to_flush.x.toNat + i) →
      word_at m' k = word_at buf.map_addr k) := by
  simp only [fb_area_t.within] at hin
  obtain ⟨hx0, hxw, hy0, hyh⟩ := hin
  refine ⟨hR.1, ?_, ?_⟩
  · intro i j hi hj
    apply RowsCopied_word buf.map_addr m' buf.shadow_buf _ _ _ _ _ _ j i hR hj hi _
      (fun v h => hv v (List.getElem?_mem h))
    rw [hsh]
    exact pixel_index_lt _ _ buf.area_to_flush.width buf.area_to_flush.height _ _ j i
      (by omega) (by omega) hj hi
  · intro k hk
    exact RowsCopied_word_out buf.map_addr m' _ _ _ _ _ _ _ _ k hR (fun j i hj hi => hk i j hi hj)

theorem sized32_of_wf (buf : fb_t) (hwf : buf.wf) (hbpp : buf.bpp = 4)
    (hWS : buf.area.width ≤ buf.row_stride) : buf.sized32 := by
  obtain ⟨_, _, _, _, hW, hH, hS, hmap, hsh, _⟩ := hwf
  rw [hbpp] at hS hmap
  exact ⟨hWS, hS, hH, hmap, hsh⟩

theorem sized32_facts (buf : fb_t) (hs : buf.sized32) :
    buf.area.height < ULONG_MOD ∧ buf.area.height * buf.row_stride * 4 < ULONG_MOD ∧
    buf.area.width < UINT_MOD := by
  obtain ⟨hWS, hS, hH, hmap, hsh⟩ := hs
  have := Nat.mul_lt_mul'' hH hS
  rw [Nat.mul_assoc]
  unfold UINT_MOD at *
  unfold ULONG_MOD
  refine ⟨?_, ?_, ?_⟩ <;> omega

theorem fb_flush_paused (buf : fb_t) (hp : 0 < buf.pause_count) :
    fb_flush buf = some (true, buf) := by
  unfold fb_flush
  rw [if_pos hp]

theorem add_area_fields (buf : fb_t) (a : fb_area_t) :
    (fb_add_area_to_flush_area buf a).map_addr = buf.map_addr ∧
    (fb_add_area_to_flush_area buf a).shadow_buf = buf.shadow_buf ∧
    (fb_add_area_to_flush_area buf a).bpp = buf.bpp ∧
    (fb_add_area_to_flush_area buf a).row_stride = buf.row_stride ∧
    (fb_add_area_to_flush_area buf a).area = buf.area ∧
    (fb_add_area_to_flush_area buf a).flush = buf.flush ∧
    (fb_add_area_to_flush_area buf a).pause_count = buf.pause_count := by
  unfold fb_add_area_to_flush_area
  simp only
  split_ifs <;> exact ⟨rfl, rfl, rfl, rfl, rfl, rfl, rfl⟩

/-- On a paused device a fill is the fill loops followed by the update of the
pending region. -/
theorem fill_paused (buf : fb_t) (hp : 0 < buf.pause_count) (area : Option fb_area_t)
    (x y : Nat) (data : List Nat) :
    fb_fill_with_argb32_data buf area x y data =
      match fill_shadow buf.area.width (area.getD buf.area) x y data buf.shadow_buf with
      | none => none
      | some sh =>
        some (true, fb_add_area_to_flush_area { buf with shadow_buf := sh }
          (area.getD buf.area)) := by
  have e : (match area with
      | none => buf.area
      | some a => a) = area.getD buf.area := by
    cases area <;> rfl
  unfold fb_fill_with_argb32_data
  simp only [e]
  cases hf : fill_shadow buf.area.width (area.getD buf.area) x y data buf.shadow_buf with
  | none => rfl
  | some sh =>
    simp only
    apply fb_flush_paused
    rw [(add_area_fields _ _).2.2.2.2.2.2]
    exact hp

/-- The data pixels of rows `y .. y + h - 1` exist when the data array holds
`w * (y + h) + x` pixels. -/
theorem data_index_lt (w h x y j i n : Nat) (hj : j < h) (hi : i < w)
    (hn : w * (y + h) + x ≤ n) : w * (y + j) + x + i < n := by
  have h1 : w * (y + j + 1) ≤ w * (y + h) := Nat.mul_le_mul_left w (by omega)
  have e1 : w * (y + j + 1) = w * (y + j) + w := by ring
  omega

/-- The top left `w x h` pixels of the shadow buffer exist when `w ≤ W`, `h ≤ H`. -/
theorem shadow_index_lt (w h W H j i : Nat) (hw : w ≤ W) (hh : h ≤ H) (hj : j < h)
    (hi : i < w) : j * W + i < W * H := by
  have := pixel_index_lt 0 0 w h W H j i (by omega) (by omega) hj hi
  simpa using this

/-- The fill loops store the data pixel at column `x + i` of row `y + j` at
column `i` of row `j` of the shadow buffer. -/
theorem fill_shadow_top_left (W H : Nat) (a : fb_area_t) (x y : Nat) (data shadow : List Nat)
    (hx : x < ULONG_MOD) (hw : a.width ≤ W) (hh : a.height ≤ H)
    (hlen : shadow.length = W * H) (hWH : W * H ≤ ULONG_MOD)
    (hdata : a.width * (y + a.height) + x ≤ data.length) (hdN : data.length < ULONG_MOD) :
    ∃ sh', fill_shadow W a x y data shadow = some sh' ∧ sh'.length = shadow.length ∧
      (∀ j i, j < a.height → i < a.width →
        sh'[j * W + i]? = data[a.width * (y + j) + x + i]?) := by
  have hsh : ∀ j i, j < a.height → i < a.width → j * W + i < shadow.length := by
    intro j i hj hi
    rw [hlen]
    exact shadow_index_lt a.width a.height W H j i hw hh hj hi
  have hdt : ∀ j i, j < a.height → i < a.width → a.width * (y + j) + x + i < data.length :=
    fun j i hj hi => data_index_lt a.width a.height x y j i data.length hj hi hdata
  by_cases h0 : a.width = 0 ∨ a.height = 0
  · obtain ⟨sh', hs, hl⟩ := fill_shadow_total W a x y data shadow hx hsh hdt
    refine ⟨sh', hs, hl, ?_⟩
    intro j i hj hi
    rcases h0 with h0 | h0 <;> omega
  · have hw0 : 0 < a.width := by omega
    have hh0 : 0 < a.height := by omega
    have h1 := hdt (a.height - 1) (a.width - 1) (by omega) (by omega)
    have h2 : a.width * 1 ≤ a.width * (y + (a.height - 1)) + a.width := by
      have := Nat.le_add_left (a.width) (a.width * (y + (a.height - 1)))
      simp only [Nat.mul_one]
      exact this
    have h3 : 1 * (y + (a.height - 1)) ≤ a.width * (y + (a.height - 1)) :=
      Nat.mul_le_mul_right _ hw0
    rw [Nat.one_mul] at h3
    rw [Nat.mul_one] at h2
    obtain ⟨sh', hs, hl, hv, _⟩ := fill_shadow_values W a x y data shadow
      (by omega) (by omega) hw (by omega) (by omega) hsh hdt
    exact ⟨sh', hs, hl, hv⟩

/-- One fill of a non-empty region inside the visible area on a paused device:
the call returns success, keeps the geometry and the pause counter, and the
pending region becomes its union with the region. -/
theorem fill_paused_step (buf : fb_t) (c : fill_call) (hp : 0 < buf.pause_count)
    (hax : 0 ≤ buf.area.x) (hay : 0 ≤ buf.area.y)
    (haw : buf.area.x + (buf.area.width : Int) < (LONG_LIM : Int))
    (hah : buf.area.y + (buf.area.height : Int) < (LONG_LIM : Int))
    (hlen : buf.shadow_buf.length = buf.area.width * buf.area.height)
    (hw : 0 < c.area.width) (hh : 0 < c.area.height) (hin : c.area.within buf.area)
    (hx : c.x < ULONG_MOD)
    (hdata : c.area.width * (c.y + c.area.height) + c.x ≤ c.data.length) :
    ∃ sh, sh.length = buf.shadow_buf.length ∧
      fb_fill_with_argb32_data buf (some c.area) c.x c.y c.data
        = some (true, { buf with
            shadow_buf := sh
            area_to_flush := fb_area_union buf.area_to_flush c.area }) := by
  have hin' := hin
  simp only [fb_area_t.within] at hin'
  have hsh : ∀ j i, j < c.area.height → i < c.area.width →
      j * buf.area.width + i < buf.shadow_buf.length := by
    intro j i hj hi
    rw [hlen]
    exact shadow_index_lt c.area.width c.area.height _ _ j i (by omega) (by omega) hj hi
  have hdt : ∀ j i, j < c.area.height → i < c.area.width →
      c.area.width * (c.y + j) + c.x + i < c.data.length :=
    fun j i hj hi => data_index_lt _ _ _ _ j i _ hj hi hdata
  obtain ⟨sh, hs, hl⟩ :=
    fill_shadow_total buf.area.width c.area c.x c.y c.data buf.shadow_buf hx hsh hdt
  refine ⟨sh, hl, ?_⟩
  rw [fill_paused buf hp]
  simp only [Option.getD_some, hs]
  have hcrop : fb_area_intersect c.area buf.area = c.area :=
    fb_area_intersect_of_within c.area buf.area hw hh hin hax hay haw hah
  unfold fb_add_area_to_flush_area
  simp only [hcrop]
  rw [if_neg (by omega)]

theorem is_bounding_box_single (p : fb_area_t) : is_bounding_box p [p] := by
  refine ⟨fun h => absurd h (by simp), fun _ => ⟨?_, ?_, ?_, ?_, ?_⟩⟩
  · intro q hq
    rw [List.mem_singleton] at hq
    subst hq
    exact ⟨le_refl _, le_refl _, le_refl _, le_refl _⟩
  all_goals exact ⟨p, List.mem_singleton.mpr rfl, rfl⟩

/-- A bounding box of `u :: rs` is one of `p :: c :: rs` when `u` is the
bounding box of `p` and `c`. -/
theorem is_bounding_box_split (q u p c : fb_area_t) (rs : List fb_area_t)
    (hq : is_bounding_box q (u :: rs))
    (hx : u.x = min p.x c.x) (hy : u.y = min p.y c.y)
    (hr : u.x + (u.width : Int) = max (p.x + (p.width : Int)) (c.x + (c.width : Int)))
    (hb : u.y + (u.height : Int) = max (p.y + (p.height : Int)) (c.y + (c.height : Int))) :
    is_bounding_box q (p :: c :: rs) := by
  obtain ⟨hcov, ⟨q1, hq1, e1⟩, ⟨q2, hq2, e2⟩, ⟨q3, hq3, e3⟩, ⟨q4, hq4, e4⟩⟩ :=
    hq.2 (by simp)
  have hu := hcov u (List.mem_cons_self _ _)
  refine ⟨fun h => absurd h (by simp), fun _ => ⟨?_, ?_, ?_, ?_, ?_⟩⟩
  · intro r hr'
    rcases List.mem_cons.mp hr' with h | h
    · subst h
      refine ⟨?_, ?_, ?_, ?_⟩ <;> omega
    · rcases List.mem_cons.mp h with h | h
      · subst h
        refine ⟨?_, ?_, ?_, ?_⟩ <;> omega
      · exact hcov r (List.mem_cons_of_mem _ h)
  · rcases List.mem_cons.mp hq1 with h | h
    · subst h
      by_cases hle : p.x ≤ c.x
      · exact ⟨p, by simp, by omega⟩
      · exact ⟨c, by simp, by omega⟩
    · exact ⟨q1, by simp [h], e1⟩
  · rcases List.mem_cons.mp hq2 with h | h
    · subst h
      by_cases hle : p.y ≤ c.y
      · exact ⟨p, by simp, by omega⟩
      · exact ⟨c, by simp, by omega⟩
    · exact ⟨q2, by simp [h], e2⟩
  · rcases List.mem_cons.mp hq3 with h | h
    · subst h
      by_cases hle : c.x + (c.width : Int) ≤ p.x + (p.width : Int)
      · exact ⟨p, by simp, by omega⟩
      · exact ⟨c, by simp, by omega⟩
    · exact ⟨q3, by simp [h], e3⟩
  · rcases List.mem_cons.mp hq4 with h | h
    · subst h
      by_cases hle : c.y + (c.height : Int) ≤ p.y + (p.height : Int)
      · exact ⟨p, by simp, by omega⟩
      · exact ⟨c, by simp, by omega⟩
    · exact ⟨q4, by simp [h], e4⟩

/-- Over a sequence of fills of non-empty regions inside the visible area of a
paused device the pending region is the bounding box of the regions, taken
together with the pending region the sequence started from when that was not
empty. -/
theorem fill_sequence_bbox (A : fb_area_t) (hax : 0 ≤ A.x) (hay : 0 ≤ A.y)
    (haw : A.x + (A.width : Int) < (LONG_LIM : Int))
    (hah : A.y + (A.height : Int) < (LONG_LIM : Int)) (calls : List fill_call) :
    ∀ buf : fb_t, buf.area = A → 0 < buf.pause_count →
      buf.shadow_buf.length = A.width * A.height →
      (buf.area_to_flush.width = 0 ∨ buf.area_to_flush.within A) →
      (∀ c, c ∈ calls → 0 < c.area.width ∧ 0 < c.area.height ∧ c.area.within A ∧
        c.x < ULONG_MOD ∧ c.area.width * (c.y + c.area.height) + c.x ≤ c.data.length) →
      ∃ buf', fill_sequence buf calls = some buf' ∧
        (buf.area_to_flush.width = 0 →
          is_bounding_box buf'.area_to_flush (calls.map fill_call.area)) ∧
        (buf.area_to_flush.width ≠ 0 →
          is_bounding_box buf'.area_to_flush
            (buf.area_to_flush :: calls.map fill_call.area)) := by
  induction calls with
  | nil =>
    intro buf _ _ _ _ _
    refine ⟨buf, rfl, ?_, ?_⟩
    · intro h
      exact ⟨fun _ => h, fun hne => absurd rfl hne⟩
    · intro _
      exact is_bounding_box_single _
  | cons c rest ih =>
    intro buf hA hp hlen hpend hcalls
    obtain ⟨hw, hh, hin, hx, hdata⟩ := hcalls c (List.mem_cons_self _ _)
    subst hA
    obtain ⟨sh, hl, hfill⟩ := fill_paused_step buf c hp hax hay haw hah hlen hw hh hin hx hdata
    have hin' := hin
    simp only [fb_area_t.within] at hin'
    have hu : (fb_area_union buf.area_to_flush c.area).width ≠ 0 ∧
        (fb_area_union buf.area_to_flush c.area).within buf.area := by
      by_cases h0 : buf.area_to_flush.width = 0
      · have e : fb_area_union buf.area_to_flush c.area = c.area := by
          simp [fb_area_union, h0]
        rw [e]
        exact ⟨by omega, hin⟩
      · have := fb_area_union_within buf.area_to_flush c.area buf.area h0 (by omega)
          (hpend.resolve_left h0) hin hax hay haw hah
        exact ⟨this.2, this.1⟩
    obtain ⟨buf', hseq, _, hbb⟩ := ih
      { buf with shadow_buf := sh, area_to_flush := fb_area_union buf.area_to_flush c.area }
      rfl hp (by rw [← hlen]; exact hl) (Or.inr hu.2)
      (fun d hd => hcalls d (List.mem_cons_of_mem _ hd))
    have hbb' := hbb hu.1
    simp only at hbb'
    refine ⟨buf', ?_, ?_, ?_⟩
    · simp only [fill_sequence, hfill]
      exact hseq
    · intro h0
      have e : fb_area_union buf.area_to_flush c.area = c.area := by
        simp [fb_area_union, h0]
      rw [e] at hbb'
      exact hbb'
    · intro h0
      have hpin := hpend.resolve_left h0
      simp only [fb_area_t.within] at hpin
      obtain ⟨e1, e2, e3, e4⟩ := fb_area_union_bbox buf.area_to_flush c.area h0 (by omega)
        (by omega) (by omega) (by omega) (by omega) (by omega) (by omega) (by omega) (by omega)
      exact is_bounding_box_split _ _ _ _ _ hbb' e1 e2 e3 e4

/-! ## A fill of the whole visible area -/

theorem fb_flush_xrgb32_unpaused (buf : fb_t) (m' : List Nat) (hpc : buf.pause_count = 0)
    (hfl : buf.flush = flush_fn.xrgb32)
    (h : flush_xrgb32 buf = some { buf with map_addr := m' }) :
    fb_flush buf = some (true, { buf with
      map_addr := m'
      area_to_flush :=
        { x := toLong (usub buf.area.width 1)
          y := toLong (usub buf.area.height 1)
          width := 0
          height := 0 } }) := by
  unfold fb_flush call_flush
  rw [if_neg (by omega), hfl]
  simp only [h, hfl]

/-- The intersection of a visible area at the origin with itself: the area
when it has pixels, an empty rectangle when it has none. -/
theorem fb_area_intersect_area (W H : Nat) (hW : W < LONG_LIM) (hH : H < LONG_LIM) :
    (0 < W ∧ 0 < H ∧ fb_area_intersect ⟨0, 0, W, H⟩ ⟨0, 0, W, H⟩ = ⟨0, 0, W, H⟩) ∨
    ((W = 0 ∨ H = 0) ∧ ((fb_area_intersect ⟨0, 0, W, H⟩ ⟨0, 0, W, H⟩).width = 0 ∨
      (fb_area_intersect ⟨0, 0, W, H⟩ ⟨0, 0, W, H⟩).height = 0)) := by
  by_cases h : 0 < W ∧ 0 < H
  · left
    refine ⟨h.1, h.2, ?_⟩
    apply fb_area_intersect_of_within _ _ h.1 h.2
    · simp only [fb_area_t.within]; omega
    · exact le_refl _
    · exact le_refl _
    · simp only; omega
    · simp only; omega
  · right
    refine ⟨by omega, ?_⟩
    rcases fb_area_intersect_cropped ⟨0, 0, W, H⟩ W H
        (by unfold fb_area_t.wf LONG_LIM ULONG_MOD at *; simp only; omega)
        (by simp only; omega) (by simp only; omega) hW hH with h1 | h1 | ⟨hin, hw, hh⟩
    · exact Or.inl h1
    · exact Or.inr h1
    · simp only [fb_area_t.within] at hin
      omega

/-! ## The claims -/

/-- C7 (counterexample).  The union is not the bounding box of every pair of
non-empty rectangles.  For `a = (-5, 0, 3, 1)` and `b = (0, 0, 10, 1)` the right
edge `-2` of `a` is compared as the unsigned number `2^64 - 2` and wins over
`10`, so the union is `a` itself and does not cover `b`.  For
`a = (0, 0, 2^64 - 1, 1)` and `b = (-1, 0, 1, 1)` the span `2^64` does not fit
the width, and the union is empty. -/
theorem fb_area_union_bounding_box_counterexample :
    (fb_area_union ⟨-5, 0, 3, 1⟩ ⟨0, 0, 10, 1⟩ = ⟨-5, 0, 3, 1⟩ ∧
      (fb_area_union ⟨-5, 0, 3, 1⟩ ⟨0, 0, 10, 1⟩).x
          + ((fb_area_union ⟨-5, 0, 3, 1⟩ ⟨0, 0, 10, 1⟩).width : Int)
        ≠ max ((-5 : Int) + ((3 : Nat) : Int)) ((0 : Int) + ((10 : Nat) : Int))) ∧
    (fb_area_union ⟨0, 0, 18446744073709551615, 1⟩ ⟨-1, 0, 1, 1⟩ = ⟨-1, 0, 0, 1⟩ ∧
      (fb_area_union ⟨0, 0, 18446744073709551615, 1⟩ ⟨-1, 0, 1, 1⟩).x
          + ((fb_area_union ⟨0, 0, 18446744073709551615, 1⟩ ⟨-1, 0, 1, 1⟩).width : Int)
        ≠ max ((0 : Int) + ((18446744073709551615 : Nat) : Int))
            ((-1 : Int) + ((1 : Nat) : Int))) := by
  decide

/-- C7 (amended).  For non-empty rectangles `a` and `b` whose right and bottom
edges `x + width`, `y + height` lie in `0 .. 2^63 - 1`, `fb_area_union a b` is the
smallest rectangle covering both: its `x` is `min a.x b.x`, its `y` is
`min a.y b.y`, its right edge is the larger right edge and its bottom edge the
larger bottom edge. -/
theorem fb_area_union_is_bounding_box (a b : fb_area_t) (ha : a.wf) (hb : b.wf)
    (haw : 0 < a.width) (hah : 0 < a.height) (hbw : 0 < b.width) (hbh : 0 < b.height)
    (hax : 0 ≤ a.x + (a.width : Int) ∧ a.x + (a.width : Int) < (LONG_LIM : Int))
    (hay : 0 ≤ a.y + (a.height : Int) ∧ a.y + (a.height : Int) < (LONG_LIM : Int))
    (hbx : 0 ≤ b.x + (b.width : Int) ∧ b.x + (b.width : Int) < (LONG_LIM : Int))
    (hby : 0 ≤ b.y + (b.height : Int) ∧ b.y + (b.height : Int) < (LONG_LIM : Int)) :
    (fb_area_union a b).x = min a.x b.x ∧
    (fb_area_union a b).y = min a.y b.y ∧
    (fb_area_union a b).x + ((fb_area_union a b).width : Int)
      = max (a.x + (a.width : Int)) (b.x + (b.width : Int)) ∧
    (fb_area_union a b).y + ((fb_area_union a b).height : Int)
      = max (a.y + (a.height : Int)) (b.y + (b.height : Int)) := by
  rw [fb_area_union_of_nonempty a b (by omega) (by omega)]
  exact ⟨MIN_eq_min _ _, MIN_eq_min _ _,
    union_span a.x b.x a.width b.width ha.1 hb.1 haw hbw hax.1 hax.2 hbx.1 hbx.2,
    union_span a.y b.y a.height b.height ha.2.2.1 hb.2.2.1 hah hbh hay.1 hay.2 hby.1 hby.2⟩

/-- C7 (witness).  Two disjoint rectangles, one of them starting left of the
origin, and their bounding box. -/
theorem fb_area_union_is_bounding_box_witness :
    (fb_area_union ⟨-2, 2, 3, 4⟩ ⟨10, 20, 5, 6⟩).x = min (-2 : Int) 10 ∧
    (fb_area_union ⟨-2, 2, 3, 4⟩ ⟨10, 20, 5, 6⟩).y = min (2 : Int) 20 ∧
    (fb_area_union ⟨-2, 2, 3, 4⟩ ⟨10, 20, 5, 6⟩).x
        + ((fb_area_union ⟨-2, 2, 3, 4⟩ ⟨10, 20, 5, 6⟩).width : Int)
      = max ((-2 : Int) + ((3 : Nat) : Int)) ((10 : Int) + ((5 : Nat) : Int)) ∧
    (fb_area_union ⟨-2, 2, 3, 4⟩ ⟨10, 20, 5, 6⟩).y
        + ((fb_area_union ⟨-2, 2, 3, 4⟩ ⟨10, 20, 5, 6⟩).height : Int)
      = max ((2 : Int) + ((4 : Nat) : Int)) ((20 : Int) + ((6 : Nat) : Int)) :=
  fb_area_union_is_bounding_box ⟨-2, 2, 3, 4⟩ ⟨10, 20, 5, 6⟩ (by decide) (by decide)
    (by decide) (by decide) (by decide) (by decide) (by decide) (by decide) (by decide)
    (by decide)

/-- C8 (counterexample).  Two empty rectangles with different fields: each
order returns its second argument, so the two unions differ. -/
theorem fb_area_union_comm_counterexample :
    fb_area_union ⟨0, 0, 0, 0⟩ ⟨5, 7, 0, 3⟩ = ⟨5, 7, 0, 3⟩ ∧
    fb_area_union ⟨5, 7, 0, 3⟩ ⟨0, 0, 0, 0⟩ = ⟨0, 0, 0, 0⟩ ∧
    fb_area_union ⟨0, 0, 0, 0⟩ ⟨5, 7, 0, 3⟩ ≠ fb_area_union ⟨5, 7, 0, 3⟩ ⟨0, 0, 0, 0⟩ := by
  decide

/-- C8 (amended).  `fb_area_union a b` and `fb_area_union b a` are equal field for
field exactly when one of the rectangles is non-empty (width not 0) or the two
rectangles are equal; two different empty rectangles give two different empty
results. -/
theorem fb_area_union_commutes (a b : fb_area_t) :
    fb_area_union a b = fb_area_union b a ↔ (a.width ≠ 0 ∨ b.width ≠ 0 ∨ a = b) :=
  fb_area_union_comm_iff a b

/-- C10 (counterexample).  A rectangle of width `2^63`: its right edge, converted
to `long`, is `-2^63`, the overlap width is negative, and the intersection
with itself is empty. -/
theorem fb_area_intersect_self_counterexample :
    fb_area_intersect ⟨0, 0, 9223372036854775808, 1⟩ ⟨0, 0, 9223372036854775808, 1⟩
      = ⟨0, 0, 0, 0⟩ ∧
    fb_area_intersect ⟨0, 0, 9223372036854775808, 1⟩ ⟨0, 0, 9223372036854775808, 1⟩
      ≠ ⟨0, 0, 9223372036854775808, 1⟩ := by
  decide

/-- C10 (amended).  For every rectangle `a` with `0 < width < 2^63` and
`0 < height < 2^63` whose right and bottom edges fit a `long`
(`x + width ≤ LONG_MAX`, `y + height ≤ LONG_MAX`), `fb_area_intersect a a`
equals `a` field for field.  On this domain the two `long` subtractions of the
source stay in range. -/
theorem fb_area_intersect_self (a : fb_area_t) (ha : a.wf)
    (hw : 0 < a.width ∧ a.width < LONG_LIM) (hh : 0 < a.height ∧ a.height < LONG_LIM)
    (hxe : a.x + (a.width : Int) < (LONG_LIM : Int))
    (hye : a.y + (a.height : Int) < (LONG_LIM : Int)) :
    fb_area_intersect a a = a := by
  obtain ⟨x, y, w, h⟩ := a
  simp only [fb_area_t.wf] at ha
  simp only at hw hh hxe hye
  have hL : LONG_LIM = 9223372036854775808 := rfl
  have hN : ULONG_MOD = 18446744073709551616 := rfl
  have hw0 : w ≠ 0 := by omega
  have e1 := edge_exact x w ha.1 hxe
  have e3 := edge_exact y h ha.2.2.1 hye
  have mx : MAX x x = x := by unfold MAX; simp
  have my : MAX y y = y := by unfold MAX; simp
  have nx : MIN (x + (w : Int)) (x + (w : Int)) = x + (w : Int) := by unfold MIN; simp
  have ny : MIN (y + (h : Int)) (y + (h : Int)) = y + (h : Int) := by unfold MIN; simp
  have ex : wrapLong (x + (w : Int) - x) = (w : Int) := by
    rw [wrapLong_of_range _ (by omega) (by omega)]
    omega
  have ey : wrapLong (y + (h : Int) - y) = (h : Int) := by
    rw [wrapLong_of_range _ (by omega) (by omega)]
    omega
  have tw : toULong (w : Int) = w := toULong_natCast w (by omega)
  have th : toULong (h : Int) = h := toULong_natCast h (by omega)
  have hpos : ¬ ((w : Int) ≤ 0 ∨ (h : Int) ≤ 0) := by omega
  simp only [fb_area_intersect, hw0, if_false, e1, e3, mx, my, nx, ny, ex, ey, tw, th, hpos]

/-- C10 (witness).  A rectangle left of and above the origin. -/
theorem fb_area_intersect_self_witness :
    fb_area_intersect ⟨-3, -4, 5, 6⟩ ⟨-3, -4, 5, 6⟩ = ⟨-3, -4, 5, 6⟩ :=
  fb_area_intersect_self ⟨-3, -4, 5, 6⟩ (by decide) (by decide) (by decide) (by decide)
    (by decide)

/-- Scenario 2 of the specification, evaluated: with row stride 4 the flush
writes two pixels per row and leaves the two padding slots of each row as they
were. -/
theorem flush_xrgb32_pending_device :
    flush_xrgb32 pending_device = some { pending_device with
      map_addr := [0x11, 0, 0, 0, 0x22, 0, 0, 0, 0xEE, 0xEE, 0xEE, 0xEE, 0xEE, 0xEE, 0xEE, 0xEE,
        0x33, 0, 0, 0, 0x44, 0, 0, 0, 0xEE, 0xEE, 0xEE, 0xEE, 0xEE, 0xEE, 0xEE, 0xEE] } := by
  decide

/-- C3.  On a device with four bytes per pixel, visible size `W x H` and row
stride `S ≥ W`, for a pending region `(x1, y1, w, h)` inside the visible area
(taken at the origin, as the flush functions do), `flush_xrgb32` returns, and
afterwards the mapped word at index `(y1 + j) * S + x1 + i` is the shadow pixel
at index `(y1 + j) * W + x1 + i` for all `i < w`, `j < h`, while every other
mapped word is unchanged. -/
theorem flush_xrgb32_copies_pending_region (buf : fb_t) (hwf : buf.wf) (hbpp : buf.bpp = 4)
    (hWS : buf.area.width ≤ buf.row_stride)
    (hin : buf.area_to_flush.within ⟨0, 0, buf.area.width, buf.area.height⟩) :
    ∃ m', flush_xrgb32 buf = some { buf with map_addr := m' } ∧
      m'.length = buf.map_addr.length ∧
      (∀ i j, i < buf.area_to_flush.width → j < buf.area_to_flush.height →
        buf.shadow_buf[(buf.area_to_flush.y.toNat + j) * buf.area.width
            + buf.area_to_flush.x.toNat + i]?
          = some (word_at m' ((buf.area_to_flush.y.toNat + j) * buf.row_stride
            + buf.area_to_flush.x.toNat + i))) ∧
      (∀ k, (∀ i j, i < buf.area_to_flush.width → j < buf.area_to_flush.height →
          k ≠ (buf.area_to_flush.y.toNat + j) * buf.row_stride
            + buf.area_to_flush.x.toNat + i) →
        word_at m' k = word_at buf.map_addr k) := by
  obtain ⟨hS, hH, hmap, hsz, hsh⟩ := wf_size_lt buf hwf hbpp
  obtain ⟨m', hm, hR⟩ := flush_xrgb32_rows buf hin hWS hS hH hmap hsz hsh
  exact ⟨m', hm, rows_words buf m' hin hsh hwf.2.2.2.2.2.2.2.2.2 hR⟩

/-- C3 (witness).  Row stride 4 on the 2 x 2 device, the whole visible area
pending. -/
theorem flush_xrgb32_copies_pending_region_witness :
    ∃ m', flush_xrgb32 pending_device = some { pending_device with map_addr := m' } ∧
      m'.length = pending_device.map_addr.length ∧
      (∀ i j, i < pending_device.area_to_flush.width →
        j < pending_device.area_to_flush.height →
        pending_device.shadow_buf[(pending_device.area_to_flush.y.toNat + j)
            * pending_device.area.width + pending_device.area_to_flush.x.toNat + i]?
          = some (word_at m' ((pending_device.area_to_flush.y.toNat + j)
            * pending_device.row_stride + pending_device.area_to_flush.x.toNat + i))) ∧
      (∀ k, (∀ i j, i < pending_device.area_to_flush.width →
          j < pending_device.area_to_flush.height →
          k ≠ (pending_device.area_to_flush.y.toNat + j) * pending_device.row_stride
            + pending_device.area_to_flush.x.toNat + i) →
        word_at m' k = word_at pending_device.map_addr k) :=
  flush_xrgb32_copies_pending_region pending_device (by decide) (by decide) (by decide)
    (by decide)

/-- C4.  On a device with four bytes per pixel and row stride at least the
visible width, for every shadow buffer, mapped memory and pending region inside
the visible area, `flush_generic` and `flush_xrgb32` both return and leave the
same device, so the same mapped memory byte for byte. -/
theorem flush_generic_eq_flush_xrgb32 (buf : fb_t) (hwf : buf.wf) (hbpp : buf.bpp = 4)
    (hWS : buf.area.width ≤ buf.row_stride)
    (hin : buf.area_to_flush.within ⟨0, 0, buf.area.width, buf.area.height⟩) :
    ∃ buf', flush_generic buf = some buf' ∧ flush_xrgb32 buf = some buf' ∧
      buf'.map_addr.length = buf.map_addr.length := by
  obtain ⟨hS, hH, hmap, hsz, hsh⟩ := wf_size_lt buf hwf hbpp
  obtain ⟨m1, hm1, hR1⟩ := flush_generic_rows buf hbpp hin hWS hH hmap hsz hsh
  obtain ⟨m2, hm2, hR2⟩ := flush_xrgb32_rows buf hin hWS hS hH hmap hsz hsh
  have e : m1 = m2 := RowsCopied_unique _ _ _ _ _ _ _ _ _ _ hR1 hR2
  subst e
  exact ⟨_, hm1, hm2, hR1.1⟩

/-- C4 (witness).  The 2 x 2 device with row stride 4 and the whole visible area
pending. -/
theorem flush_generic_eq_flush_xrgb32_witness :
    ∃ buf', flush_generic pending_device = some buf' ∧
      flush_xrgb32 pending_device = some buf' ∧
      buf'.map_addr.length = pending_device.map_addr.length :=
  flush_generic_eq_flush_xrgb32 pending_device (by decide) (by decide) (by decide) (by decide)

/-- C6.  While the pause counter is greater than zero, `fb_flush` returns
success and leaves the device as it is; every `fb_fill_with_argb32_data` call
that returns gives success and leaves the mapped memory (and everything but
the shadow buffer and the pending region) unchanged; and the call does return
whenever the pixels it addresses exist in the shadow buffer and in the data. -/
theorem paused_device_keeps_mapped_memory (buf : fb_t) (hp : 0 < buf.pause_count) :
    fb_flush buf = some (true, buf) ∧
    (∀ area x y data r, fb_fill_with_argb32_data buf area x y data = some r →
      r.1 = true ∧ r.2.map_addr = buf.map_addr ∧ r.2.bpp = buf.bpp ∧
      r.2.row_stride = buf.row_stride ∧ r.2.area = buf.area ∧ r.2.flush = buf.flush ∧
      r.2.pause_count = buf.pause_count) ∧
    (∀ (area : Option fb_area_t) (x y : Nat) (data : List Nat), x < ULONG_MOD →
      (∀ j i, j < (area.getD buf.area).height → i < (area.getD buf.area).width →
        j * buf.area.width + i < buf.shadow_buf.length) →
      (∀ j i, j < (area.getD buf.area).height → i < (area.getD buf.area).width →
        (area.getD buf.area).width * (y + j) + x + i < data.length) →
      ∃ buf', fb_fill_with_argb32_data buf area x y data = some (true, buf')) := by
  refine ⟨fb_flush_paused buf hp, ?_, ?_⟩
  · intro area x y data r hr
    rw [fill_paused buf hp] at hr
    cases hf : fill_shadow buf.area.width (area.getD buf.area) x y data buf.shadow_buf with
    | none => rw [hf] at hr; exact absurd hr (by simp)
    | some sh =>
      rw [hf] at hr
      simp only [Option.some.injEq] at hr
      subst hr
      obtain ⟨h1, _, h3, h4, h5, h6, h7⟩ :=
        add_area_fields { buf with shadow_buf := sh } (area.getD buf.area)
      exact ⟨rfl, h1, h3, h4, h5, h6, h7⟩
  · intro area x y data hx hsh hdt
    obtain ⟨sh, hs, _⟩ :=
      fill_shadow_total buf.area.width (area.getD buf.area) x y data buf.shadow_buf hx hsh hdt
    rw [fill_paused buf hp, hs]
    exact ⟨_, rfl⟩

/-- C6 (witness).  The paused 2 x 2 device. -/
theorem paused_device_keeps_mapped_memory_witness :
    fb_flush paused_device = some (true, paused_device) ∧
    (∀ area x y data r, fb_fill_with_argb32_data paused_device area x y data = some r →
      r.1 = true ∧ r.2.map_addr = paused_device.map_addr ∧ r.2.bpp = paused_device.bpp ∧
      r.2.row_stride = paused_device.row_stride ∧ r.2.area = paused_device.area ∧
      r.2.flush = paused_device.flush ∧ r.2.pause_count = paused_device.pause_count) ∧
    (∀ (area : Option fb_area_t) (x y : Nat) (data : List Nat), x < ULONG_MOD →
      (∀ j i, j < (area.getD paused_device.area).height →
        i < (area.getD paused_device.area).width →
        j * paused_device.area.width + i < paused_device.shadow_buf.length) →
      (∀ j i, j < (area.getD paused_device.area).height →
        i < (area.getD paused_device.area).width →
        (area.getD paused_device.area).width * (y + j) + x + i < data.length) →
      ∃ buf', fb_fill_with_argb32_data paused_device area x y data = some (true, buf')) :=
  paused_device_keeps_mapped_memory paused_device (by decide)

/-- A fill of the whole area of the paused device, evaluated: the shadow buffer
takes the pixels, the pending region becomes the visible area, the mapped bytes
stay as they were. -/
theorem fill_paused_device :
    fb_fill_with_argb32_data paused_device none 0 0 [0x11, 0x22, 0x33, 0x44]
      = some (true, { paused_device with
          shadow_buf := [0x11, 0x22, 0x33, 0x44]
          area_to_flush := ⟨0, 0, 2, 2⟩ }) := by
  decide

/-- C5.  On a paused device with nothing pending, after any sequence of
`fb_fill_with_argb32_data` calls with non-empty regions inside the visible area
(each call given the data pixels it reads) every call has returned success and
the pending flush region is the bounding box of the regions: empty for no
call, otherwise the smallest rectangle covering all of them.  The regions need
not be disjoint. -/
theorem pending_region_is_bounding_box (buf : fb_t) (calls : List fill_call)
    (hwf : buf.wf) (hp : 0 < buf.pause_count) (he : buf.area_to_flush.width = 0)
    (hcalls : ∀ c, c ∈ calls → 0 < c.area.width ∧ 0 < c.area.height ∧
      c.area.within buf.area ∧ c.x < ULONG_MOD ∧
      c.area.width * (c.y + c.area.height) + c.x ≤ c.data.length) :
    ∃ buf', fill_sequence buf calls = some buf' ∧
      is_bounding_box buf'.area_to_flush (calls.map fill_call.area) := by
  obtain ⟨hx0, hx1, hy0, hy1, hW, hH, _, _, hsh, _⟩ := hwf
  obtain ⟨buf', hseq, hbb, _⟩ := fill_sequence_bbox buf.area hx0 hy0
    (by unfold UINT_MOD at hx1 hW; unfold LONG_LIM; omega)
    (by unfold UINT_MOD at hy1 hH; unfold LONG_LIM; omega)
    calls buf rfl hp hsh (Or.inl he) hcalls
  exact ⟨buf', hseq, hbb he⟩

/-- C5 (witness).  Two disjoint one-pixel regions in opposite corners of the
paused 2 x 2 device. -/
theorem pending_region_is_bounding_box_witness :
    ∃ buf', fill_sequence paused_device two_fills = some buf' ∧
      is_bounding_box buf'.area_to_flush (two_fills.map fill_call.area) :=
  pending_region_is_bounding_box paused_device two_fills (by decide) (by decide) (by decide)
    (by
      intro c hc
      simp only [two_fills, List.mem_cons, List.mem_singleton, List.not_mem_nil,
        or_false] at hc
      rcases hc with rfl | rfl <;> decide)

/-- The pending region after the two fills, evaluated: the whole visible area. -/
theorem fill_sequence_two_fills :
    (fill_sequence paused_device two_fills).map (fun b => b.area_to_flush)
      = some ⟨0, 0, 2, 2⟩ := by
  decide

/-- C1.  On a device whose visible area has origin (0,0) and size `W x H`, with
row stride `S ≥ W`, the fast path selected (so four bytes per pixel), the pause
counter 0 and nothing pending, for every data array of `W * H` pixels,
`fb_fill_with_argb32_data` with a null region and `x = y = 0` returns success,
the mapped word at index `j * S + i` is `data[j * W + i]` for all `i < W`,
`j < H`, and the pending region is empty afterwards. -/
theorem fill_full_area_reaches_device (buf : fb_t) (data : List Nat)
    (hwf : buf.wf) (hbpp : buf.bpp = 4) (hox : buf.area.x = 0) (hoy : buf.area.y = 0)
    (hWS : buf.area.width ≤ buf.row_stride) (hfl : buf.flush = flush_fn.xrgb32)
    (hpc : buf.pause_count = 0) (he : buf.area_to_flush.width = 0)
    (hdl : data.length = buf.area.width * buf.area.height)
    (hdv : ∀ v ∈ data, v < UINT_MOD) :
    ∃ buf', fb_fill_with_argb32_data buf none 0 0 data = some (true, buf') ∧
      (∀ i j, i < buf.area.width → j < buf.area.height →
        data[j * buf.area.width + i]?
          = some (word_at buf'.map_addr (j * buf.row_stride + i))) ∧
      buf'.area_to_flush.width = 0 := by
  obtain ⟨hWS', hS, hH, hmap, hlen⟩ := sized32_of_wf buf hwf hbpp hWS
  obtain ⟨hHN, hsz, hW⟩ := sized32_facts buf (sized32_of_wf buf hwf hbpp hWS)
  obtain ⟨map, shd, bpp, S, ⟨ax, ay, W, H⟩, atf, fl, pc⟩ := buf
  simp only at hbpp hox hoy hWS hfl hpc he hdl hS hH hmap hlen hHN hsz hW ⊢
  subst hox hoy hbpp hfl hpc
  have hWH : W * H < ULONG_MOD := by
    have := Nat.mul_lt_mul'' hW hH
    unfold UINT_MOD at this
    unfold ULONG_MOD
    omega
  have hWL : W < LONG_LIM := by unfold UINT_MOD at hW; unfold LONG_LIM; omega
  have hHL : H < LONG_LIM := by unfold UINT_MOD at hH; unfold LONG_LIM; omega
  obtain ⟨sh, hsh, hl, hv⟩ := fill_shadow_top_left W H ⟨0, 0, W, H⟩ 0 0 data shd
    (by unfold ULONG_MOD; omega) (le_refl _) (le_refl _) hlen (by omega)
    (by simp only [Nat.zero_add, Nat.add_zero]; omega) (by omega)
  simp only [Nat.zero_add, Nat.add_zero] at hv
  unfold fb_fill_with_argb32_data
  simp only [hsh]
  rcases fb_area_intersect_area W H hWL hHL with ⟨hW0, hH0, hint⟩ | ⟨hz, hemp⟩
  · have hadd : fb_add_area_to_flush_area
        { map_addr := map, shadow_buf := sh, bpp := 4, row_stride := S, area := ⟨0, 0, W, H⟩,
          area_to_flush := atf, flush := flush_fn.xrgb32, pause_count := 0 } ⟨0, 0, W, H⟩
        = { map_addr := map, shadow_buf := sh, bpp := 4, row_stride := S,
            area := ⟨0, 0, W, H⟩, area_to_flush := ⟨0, 0, W, H⟩, flush := flush_fn.xrgb32,
            pause_count := 0 } := by
      unfold fb_add_area_to_flush_area
      simp only [hint]
      rw [if_neg (by omega)]
      simp [fb_area_union, he]
    rw [hadd]
    obtain ⟨m', hm, hR⟩ := flush_xrgb32_rows
      { map_addr := map, shadow_buf := sh, bpp := 4, row_stride := S,
        area := ⟨0, 0, W, H⟩, area_to_flush := ⟨0, 0, W, H⟩, flush := flush_fn.xrgb32,
        pause_count := 0 }
      (by simp only [fb_area_t.within]; omega) hWS hS hHN hmap hsz (by simp only; omega)
    simp only [Int.toNat_zero] at hR
    refine ⟨_, fb_flush_xrgb32_unpaused _ m' rfl rfl hm, ?_, rfl⟩
    intro i j hi hj
    have hidx : (0 + j) * W + 0 + i < sh.length := by
      have := shadow_index_lt W H W H j i (le_refl _) (le_refl _) hj hi
      simp only [Nat.zero_add, Nat.add_zero]
      omega
    have hw := RowsCopied_word map m' sh 0 0 W H W S j i hR hj hi hidx (by
      intro v hvv
      simp only [Nat.zero_add, Nat.add_zero] at hvv
      rw [hv j i hj hi] at hvv
      exact hdv v (List.getElem?_mem hvv))
    simp only [Nat.zero_add, Nat.add_zero] at hw
    rw [hv j i hj hi, Nat.mul_comm W j] at hw
    exact hw
  · have hadd : fb_add_area_to_flush_area
        { map_addr := map, shadow_buf := sh, bpp := 4, row_stride := S, area := ⟨0, 0, W, H⟩,
          area_to_flush := atf, flush := flush_fn.xrgb32, pause_count := 0 } ⟨0, 0, W, H⟩
        = { map_addr := map, shadow_buf := sh, bpp := 4, row_stride := S,
            area := ⟨0, 0, W, H⟩, area_to_flush := atf, flush := flush_fn.xrgb32,
            pause_count := 0 } := by
      unfold fb_add_area_to_flush_area
      simp only
      rw [if_pos hemp]
    rw [hadd]
    have hm := flush_xrgb32_of_width_zero
      { map_addr := map, shadow_buf := sh, bpp := 4, row_stride := S,
        area := ⟨0, 0, W, H⟩, area_to_flush := atf, flush := flush_fn.xrgb32,
        pause_count := 0 } he
    refine ⟨_, fb_flush_xrgb32_unpaused _ map rfl rfl hm, ?_, rfl⟩
    intro i j hi hj
    rcases hz with hz | hz <;> omega

/-- C1 (witness).  The 2 x 2 device with row stride 2 and the pixels
`0x11, 0x22, 0x33, 0x44`. -/
theorem fill_full_area_reaches_device_witness :
    ∃ buf', fb_fill_with_argb32_data (scenario_device 2) none 0 0 [0x11, 0x22, 0x33, 0x44]
        = some (true, buf') ∧
      (∀ i j, i < (scenario_device 2).area.width → j < (scenario_device 2).area.height →
        [0x11, 0x22, 0x33, 0x44][j * (scenario_device 2).area.width + i]?
          = some (word_at buf'.map_addr (j * (scenario_device 2).row_stride + i))) ∧
      buf'.area_to_flush.width = 0 :=
  fill_full_area_reaches_device (scenario_device 2) [0x11, 0x22, 0x33, 0x44] (by decide)
    (by decide) (by decide) (by decide) (by decide) (by decide) (by decide) (by decide)
    (by decide) (by decide)

/-- Scenario 1 of the specification, evaluated: the mapped memory holds the
four pixels in row-major order and the pending region is reset to the empty
sentinel `(W - 1, H - 1, 0, 0)`. -/
theorem fill_scenario_device :
    fb_fill_with_argb32_data (scenario_device 2) none 0 0 [0x11, 0x22, 0x33, 0x44]
      = some (true, { scenario_device 2 with
          map_addr := [0x11, 0, 0, 0, 0x22, 0, 0, 0, 0x33, 0, 0, 0, 0x44, 0, 0, 0]
          shadow_buf := [0x11, 0x22, 0x33, 0x44]
          area_to_flush := ⟨1, 1, 0, 0⟩ }) := by
  decide

end PlyImage
